import Mathlib

/-!
# The data pipeline of `script.js`

A shallow embedding of the parser, the field normalizers, the filter, the sort and the
sort toggle of `src/script.js`, followed by the theorems about them.

JavaScript strings are modelled as lists of characters (`Str`).  Every character the
code tests for (quote, comma, newline, slash, digits, letters, white space) lies in the
Basic Multilingual Plane, so scanning by character and scanning by UTF-16 code unit
agree; where the order of code units matters (string comparison) the strings are
encoded first.

What the script takes from its host rather than computes itself is gathered in `Host`:
the locale-independent but table-driven `toLowerCase`, the implementation-defined
parse of `new Date(string)`, and the time zone.  Numbers are IEEE 754 doubles, kept
exactly as integer multiples of `2 ^ (-1074)`.
-/

set_option maxRecDepth 4000
set_option exponentiation.threshold 5000

namespace Script

/-- A JavaScript string, as the list of its characters. -/
abbrev Str := List Char

/-! ## String built-ins used by the script -/

/-- The characters `String.prototype.trim` strips and `\s` matches: ECMAScript
`WhiteSpace` and `LineTerminator`. -/
def isWhiteSpace (c : Char) : Bool :=
  let n := c.toNat
  n == 0x09 || n == 0x0A || n == 0x0B || n == 0x0C || n == 0x0D || n == 0x20 ||
  n == 0xA0 || n == 0x1680 || (0x2000 ≤ n && n ≤ 0x200A) || n == 0x2028 ||
  n == 0x2029 || n == 0x202F || n == 0x205F || n == 0x3000 || n == 0xFEFF

/-- `s.trim()`. -/
def trim (s : Str) : Str :=
  ((s.dropWhile isWhiteSpace).reverse.dropWhile isWhiteSpace).reverse

/-- `s.split(sep)` for a one-character separator: the pieces between the separators,
always at least one piece. -/
def split (sep : Char) : Str → List Str
  | [] => [[]]
  | c :: cs =>
    if c = sep then [] :: split sep cs
    else
      match split sep cs with
      | [] => [[c]]
      | piece :: pieces => (c :: piece) :: pieces

/-- Whether `s` begins with `start`. -/
def startsWith : Str → Str → Bool
  | _, [] => true
  | [], _ :: _ => false
  | c :: cs, d :: ds => c == d && startsWith cs ds

/-- `hay.includes(needle)`: `needle` occurs in `hay` as a contiguous run. -/
def includes : Str → Str → Bool
  | [], needle => needle.isEmpty
  | c :: cs, needle => startsWith (c :: cs) needle || includes cs needle

/-- `\d`: an ASCII decimal digit. -/
def isDigit (c : Char) : Bool := 48 ≤ c.toNat && c.toNat ≤ 57

/-- `[A-Za-z]`. -/
def isAsciiLetter (c : Char) : Bool :=
  (65 ≤ c.toNat && c.toNat ≤ 90) || (97 ≤ c.toNat && c.toNat ≤ 122)

/-- The UTF-16 code units of a string, which is what `<` on strings compares. -/
def codeUnits (s : Str) : List Nat :=
  s.flatMap fun c =>
    if c.toNat < 0x10000 then [c.toNat]
    else [0xD800 + (c.toNat - 0x10000) / 0x400, 0xDC00 + (c.toNat - 0x10000) % 0x400]

/-- `a < b` on strings, given their code units: the first difference decides, and a
string is below each of its proper extensions. -/
def codeUnitsLt : List Nat → List Nat → Bool
  | [], [] => false
  | [], _ :: _ => true
  | _ :: _, [] => false
  | a :: as, b :: bs => decide (a < b) || (a == b && codeUnitsLt as bs)

/-- What the script takes from the JavaScript host. -/
structure Host where
  /-- The built-in `String.prototype.toLowerCase`. -/
  toLowerCase : Str → Str
  /-- The time value of `new Date(string)`, `none` when the host cannot parse the
  string (the time value is then NaN). -/
  parseDate : Str → Option Int
  /-- The abstract operation `UTC(t)`: the time value of the local time `t`. -/
  utc : Int → Int

/-- Lower-casing of the ASCII letters, which is what `toLowerCase` does on ASCII text. -/
def asciiLower (s : Str) : Str := s.map Char.toLower

/-- A host for ASCII text in the UTC time zone whose date parser accepts nothing. -/
def asciiHost : Host where
  toLowerCase := asciiLower
  parseDate := fun _ => none
  utc := fun t => t

/-! ## Delimited-text parser -/

/-- The loop state of `parseCSVLine`: the fields pushed so far, the field being
read, and the quote flag. -/
structure LineState where
  values : List Str
  current : Str
  inQuotes : Bool
deriving DecidableEq, Repr

/-- One iteration of the `for` loop of `parseCSVLine`. -/
def parseCSVLineStep (st : LineState) (char : Char) : LineState :=
  if char = '"' then
    { st with inQuotes := !st.inQuotes }
  else if char = ',' ∧ st.inQuotes = false then
    { st with values := st.values ++ [st.current], current := [] }
  else
    { st with current := st.current ++ [char] }

/-- The loop state of `parseCSVLine` after the characters of `line`. -/
def lineStateAfter (line : Str) : LineState :=
  line.foldl parseCSVLineStep { values := [], current := [], inQuotes := false }

/-- `parseCSVLine(line)`: run the loop over the characters, then push the last field. -/
def parseCSVLine (line : Str) : List Str :=
  (lineStateAfter line).values ++ [(lineStateAfter line).current]

/-- A record: a JavaScript object with string values, as its own properties in
insertion order. -/
abbrev Record := List (Str × Str)

/-- `row[key]` for an own property: `none` is `undefined`. -/
def Record.get (row : Record) (key : Str) : Option Str :=
  match row with
  | [] => none
  | (k, v) :: rest => if k = key then some v else Record.get rest key

/-- The replacement of the value of an existing own property. -/
def Record.replace (row : Record) (key value : Str) : Record :=
  match row with
  | [] => []
  | (k, v) :: rest =>
    if k = key then (k, value) :: rest else (k, v) :: Record.replace rest key value

/-- `row[key] = value` with a string value on an object created by `{}`: an existing
own property is overwritten in place, a new one is appended, and the key `__proto__`
reaches the prototype setter, which ignores a string. -/
def Record.set (row : Record) (key value : Str) : Record :=
  if key = "__proto__".toList then row
  else if (row.get key).isSome then row.replace key value
  else row ++ [(key, value)]

/-- The `headers.forEach` of `parseCSV`, from position `index` on: each header, trimmed,
is assigned the trimmed value at the same index.  The caller has checked that there are
as many values as headers. -/
def fillRow (values : List Str) : List Str → Nat → Record → Record
  | [], _, row => row
  | header :: rest, index, row =>
    fillRow values rest (index + 1) (row.set (trim header) (trim (values.getD index [])))

/-- The body of the `for` loop of `parseCSV` for one data line. -/
def parseCSVStep (headers : List Str) (data : List Record) (line : Str) : List Record :=
  if (parseCSVLine line).length = headers.length then
    data ++ [fillRow (parseCSVLine line) headers 0 []]
  else data

/-- `parseCSV(csvText)`. -/
def parseCSV (csvText : Str) : List Record :=
  let lines := split '\n' (trim csvText)
  let headers := split ',' (lines.headD [])
  lines.tail.foldl (parseCSVStep headers) []

/-! ### Reading a line by positions -/

/-- The number of quote characters before position `i` of the line. -/
def quotesBefore (line : Str) (i : Nat) : Nat := (line.take i).count '"'

/-- Position `i` holds a comma preceded by an even number of quote characters. -/
def isSplitComma (line : Str) (i : Nat) : Bool :=
  line.get? i == some ',' && quotesBefore line i % 2 == 0

/-- Position `i` holds a comma preceded by an odd number of quote characters. -/
def isQuotedComma (line : Str) (i : Nat) : Bool :=
  line.get? i == some ',' && quotesBefore line i % 2 == 1

/-- The character at position `i` when it is neither a quote nor a splitting comma. -/
def keptChar (line : Str) (i : Nat) : Option Char :=
  match line.get? i with
  | none => none
  | some c => if c = '"' ∨ isSplitComma line i = true then none else some c

/-- The number of splitting commas before position `i` of the line. -/
def splitsBefore (line : Str) (i : Nat) : Nat :=
  ((List.range i).filter (isSplitComma line)).length

/-- Field number `j` of the line, read by positions: the kept characters that have
exactly `j` splitting commas before them, in order.  These are the characters between
the splitting comma number `j` and the next one (from the start of the line for
`j = 0`, to its end for the last field), without the quotes. -/
def fieldAt (line : Str) (j : Nat) : Str :=
  (List.range line.length).filterMap
    (fun i => if splitsBefore line i = j then keptChar line i else none)

/-! ## Numbers

A finite double is an integer multiple of `2 ^ (-1074)`, the smallest positive double.
`fin negative mag` is the double `± mag · 2 ^ (-1074)`; both zeros are kept. -/

/-- A JavaScript Number. -/
inductive JSNumber where
  | nan : JSNumber
  | fin (negative : Bool) (mag : Nat) : JSNumber
  | inf (negative : Bool) : JSNumber
deriving DecidableEq, Repr

/-- The number of binary digits of `n`, found by halving the width: `bitLength k n` is
exact for `n < 2 ^ 2 ^ k`. -/
def bitLength : Nat → Nat → Nat
  | 0, n => if n = 0 then 0 else 1
  | k + 1, n =>
    if n < 2 ^ 2 ^ k then bitLength k n else 2 ^ k + bitLength k (n / 2 ^ 2 ^ k)

/-- The number of low bits a double drops at magnitude `q` (counted in units of
`2 ^ (-1074)`): none below `2 ^ 53`, one more for each further doubling.  Exact for
`q < 2 ^ 4096`, far beyond the overflow threshold `2 ^ 2098`. -/
def binadeShift (q : Nat) : Nat := bitLength 12 q - 53

/-- The integer multiple of the local spacing nearest to `num / den`, ties going to the
even significand: IEEE 754 round-to-nearest-even, before the overflow check. -/
def roundNearestEven (num den : Nat) : Nat :=
  let q := num / den
  let step := 2 ^ binadeShift q
  let lo := q / step * step
  let twice := 2 * (num - lo * den)
  let half := step * den
  if twice < half then lo
  else if half < twice then lo + step
  else if q / step % 2 = 0 then lo else lo + step

/-- The Number value for the real number `± num / den`: rounded to the nearest double,
to infinity from `2 ^ 1024` on. -/
def JSNumber.ofRatio (negative : Bool) (num den : Nat) : JSNumber :=
  let r := roundNearestEven (num * 2 ^ 1074) den
  if 2 ^ 2098 ≤ r then JSNumber.inf negative else JSNumber.fin negative r

/-- The Number value of a natural number literal. -/
def JSNumber.ofNat (n : Nat) : JSNumber := JSNumber.ofRatio false n 1

/-- The Number value of an integer. -/
def JSNumber.ofInt (z : Int) : JSNumber := JSNumber.ofRatio (decide (z < 0)) z.natAbs 1

/-- The signed count of units of a finite double. -/
def signedUnits (negative : Bool) (mag : Nat) : Int :=
  if negative then -(mag : Int) else (mag : Int)

/-- `x < y` on Numbers: false as soon as one side is NaN; the two zeros are equal. -/
def JSNumber.lt : JSNumber → JSNumber → Bool
  | JSNumber.fin n a, JSNumber.fin m b => decide (signedUnits n a < signedUnits m b)
  | JSNumber.inf true, JSNumber.fin _ _ => true
  | JSNumber.inf true, JSNumber.inf false => true
  | JSNumber.fin _ _, JSNumber.inf false => true
  | _, _ => false

/-- `x * y` on Numbers. -/
def JSNumber.mul : JSNumber → JSNumber → JSNumber
  | JSNumber.nan, _ => JSNumber.nan
  | _, JSNumber.nan => JSNumber.nan
  | JSNumber.inf n, JSNumber.inf m => JSNumber.inf (n != m)
  | JSNumber.inf n, JSNumber.fin m b => if b = 0 then JSNumber.nan else JSNumber.inf (n != m)
  | JSNumber.fin n a, JSNumber.inf m => if a = 0 then JSNumber.nan else JSNumber.inf (n != m)
  | JSNumber.fin n a, JSNumber.fin m b => JSNumber.ofRatio (n != m) (a * b) (2 ^ 2148)

/-- `x - y` on Numbers. -/
def JSNumber.sub : JSNumber → JSNumber → JSNumber
  | JSNumber.nan, _ => JSNumber.nan
  | _, JSNumber.nan => JSNumber.nan
  | JSNumber.inf n, JSNumber.inf m => if n = m then JSNumber.nan else JSNumber.inf n
  | JSNumber.inf n, JSNumber.fin _ _ => JSNumber.inf n
  | JSNumber.fin _ _, JSNumber.inf m => JSNumber.inf (!m)
  | JSNumber.fin n a, JSNumber.fin m b =>
    let d := signedUnits n a - signedUnits m b
    if d = 0 then JSNumber.fin (n && !m) 0
    else JSNumber.ofRatio (decide (d < 0)) d.natAbs (2 ^ 1074)

/-- `ToIntegerOrInfinity` of a finite Number (truncation toward zero); `none` for NaN
and the infinities, for which the date operations give NaN. -/
def JSNumber.toInteger : JSNumber → Option Int
  | JSNumber.fin negative mag => some (signedUnits negative (mag / 2 ^ 1074))
  | _ => none

/-- The value of a digit in radix up to 36. -/
def radixDigit (radix : Nat) (c : Char) : Option Nat :=
  let v :=
    if isDigit c then some (c.toNat - 48)
    else if 97 ≤ c.toNat ∧ c.toNat ≤ 122 then some (c.toNat - 87)
    else if 65 ≤ c.toNat ∧ c.toNat ≤ 90 then some (c.toNat - 55)
    else none
  v.filter (fun d => decide (d < radix))

/-- The integer written by a run of digits in the given radix. -/
def radixValue (radix : Nat) (digits : Str) : Nat :=
  digits.foldl (fun acc c => radix * acc + (radixDigit radix c).getD 0) 0

/-- The built-in `parseInt(string)` without a radix: leading white space, a sign, a
`0x` marker, then the longest run of digits; NaN when that run is empty. -/
def parseInt (string : Str) : JSNumber :=
  let s := string.dropWhile isWhiteSpace
  let negative := s.head? == some '-'
  let s := if s.head? == some '+' || s.head? == some '-' then s.tail else s
  let hex := startsWith s "0x".toList || startsWith s "0X".toList
  let radix := if hex then 16 else 10
  let s := if hex then s.drop 2 else s
  let z := s.takeWhile (fun c => (radixDigit radix c).isSome)
  if z = [] then JSNumber.nan else JSNumber.ofRatio negative (radixValue radix z) 1

/-- The exponent part `e`, sign, digits at the head of `s`, when complete. -/
def exponentPart (s : Str) : Int :=
  match s with
  | [] => 0
  | e :: rest =>
    if e = 'e' ∨ e = 'E' then
      let negative := rest.head? == some '-'
      let rest := if rest.head? == some '+' || rest.head? == some '-' then rest.tail else rest
      let digits := rest.takeWhile isDigit
      if negative then -(radixValue 10 digits : Int) else (radixValue 10 digits : Int)
    else 0

/-- The built-in `parseFloat(string)`: leading white space, a sign, then the longest
decimal literal (`Infinity`, or digits with an optional point and exponent); NaN when
there is none. -/
def parseFloat (string : Str) : JSNumber :=
  let s := string.dropWhile isWhiteSpace
  let negative := s.head? == some '-'
  let s := if s.head? == some '+' || s.head? == some '-' then s.tail else s
  if startsWith s "Infinity".toList then JSNumber.inf negative
  else
    let whole := s.takeWhile isDigit
    let rest := s.dropWhile isDigit
    let fraction := match rest with
      | '.' :: r => r.takeWhile isDigit
      | _ => []
    let tail := match rest with
      | '.' :: r => r.dropWhile isDigit
      | _ => rest
    if whole = [] ∧ fraction = [] then JSNumber.nan
    else
      let mantissa := radixValue 10 (whole ++ fraction)
      let exponent := exponentPart tail - (fraction.length : Int)
      if 0 ≤ exponent then JSNumber.ofRatio negative (mantissa * 10 ^ exponent.toNat) 1
      else JSNumber.ofRatio negative mantissa (10 ^ (-exponent).toNat)

/-! ## Quantity normalization -/

/-- `[KMG]` under the flag `i`: the letters K, M, G in either case. -/
def isUnitLetter (c : Char) : Bool :=
  c == 'K' || c == 'M' || c == 'G' || c == 'k' || c == 'm' || c == 'g'

/-- `[\d.]`: a digit or a dot. -/
def isDigitOrDot (c : Char) : Bool := isDigit c || c == '.'

/-- The match of `/^([\d.]+)([KMG]?)$/i`: a non-empty run of digits and dots, then at
most one of the letters K, M, G in either case, and nothing else.  The two groups
cannot trade characters, so the match is unique. -/
def matchSize (s : Str) : Option (Str × Option Char) :=
  let digits := s.takeWhile isDigitOrDot
  let rest := s.dropWhile isDigitOrDot
  if digits = [] then none
  else
    match rest with
    | [] => some (digits, none)
    | [u] => if isUnitLetter u then some (digits, some u) else none
    | _ => none

/-- `parseSizeToNumber(sizeStr)` for a string argument. -/
def parseSizeToNumber (sizeStr : Str) : JSNumber :=
  if sizeStr = [] then JSNumber.ofNat 0
  else
    match matchSize sizeStr with
    | none => JSNumber.ofNat 0
    | some (digits, unit) =>
      let num := parseFloat digits
      match unit.map Char.toUpper with
      | some 'K' => num.mul (JSNumber.ofNat 1000)
      | some 'M' => num.mul (JSNumber.ofNat 1000000)
      | some 'G' => num.mul (JSNumber.ofNat 1000000000)
      | _ => num

/-- The factor the claims attach to a unit letter. -/
def unitMultiplier (unit : Option Char) : Nat :=
  match unit.map Char.toUpper with
  | some 'K' => 1000
  | some 'M' => 1000000
  | some 'G' => 1000000000
  | _ => 1

/-- A number taken as it is without a unit letter, and multiplied as a double by the
factor of the letter otherwise. -/
def JSNumber.scaled (x : JSNumber) (unit : Option Char) : JSNumber :=
  match unit with
  | none => x
  | some _ => x.mul (JSNumber.ofNat (unitMultiplier unit))

/-- A decimal number as the claims read it: digits with at most one decimal point and
at least one digit. -/
def isDecimalNumber (s : Str) : Bool :=
  s.all isDigitOrDot && decide (s.count '.' ≤ 1) && s.any isDigit

/-- A decimal number followed by at most one unit letter. -/
def isDecimalWithUnit (s : Str) : Bool :=
  isDecimalNumber s ||
  (match s.getLast? with
   | some u => isUnitLetter u && isDecimalNumber s.dropLast
   | none => false)

/-! ## Dates

The day and time arithmetic of the ECMAScript `Date` object.  Division and remainder
on integers round toward minus infinity for the positive divisors used here. -/

/-- Milliseconds in a day. -/
def msPerDay : Int := 86400000

/-- `Day(t)`. -/
def Day (t : Int) : Int := t / msPerDay

/-- `TimeWithinDay(t)`. -/
def TimeWithinDay (t : Int) : Int := t % msPerDay

/-- `DaysInYear(y)`. -/
def DaysInYear (y : Int) : Int :=
  if y % 4 ≠ 0 then 365
  else if y % 100 ≠ 0 then 366
  else if y % 400 ≠ 0 then 365
  else 366

/-- `DayFromYear(y)`: the day number of 1 January of year `y`. -/
def DayFromYear (y : Int) : Int :=
  365 * (y - 1970) + (y - 1969) / 4 - (y - 1901) / 100 + (y - 1601) / 400

/-- The search behind `YearFromTime`: from `y` downward, the first year that starts on
or before `day`. -/
def yearScan (day : Int) : Nat → Int → Int
  | 0, y => y
  | fuel + 1, y => if DayFromYear y ≤ day then y else yearScan day fuel (y - 1)

/-- `YearFromTime(t)`: the largest year whose first day is not after `t`.  The search
starts at a year that cannot be too small and has room for the drift between 365 and
366 days a year. -/
def YearFromTime (t : Int) : Int :=
  yearScan (Day t) ((Day t).natAbs / 100000 + 3) (1970 + max (Day t / 365) (Day t / 366))

/-- `InLeapYear(t)`, for the year itself. -/
def leapDay (y : Int) : Int := if DaysInYear y = 366 then 1 else 0

/-- `DayWithinYear(t)`. -/
def DayWithinYear (t : Int) : Int := Day t - DayFromYear (YearFromTime t)

/-- The day within the year on which month `m` (0 for January) starts. -/
def monthStart (leap : Int) (m : Int) : Int :=
  if m = 0 then 0
  else if m = 1 then 31
  else if m = 2 then 59 + leap
  else if m = 3 then 90 + leap
  else if m = 4 then 120 + leap
  else if m = 5 then 151 + leap
  else if m = 6 then 181 + leap
  else if m = 7 then 212 + leap
  else if m = 8 then 243 + leap
  else if m = 9 then 273 + leap
  else if m = 10 then 304 + leap
  else 334 + leap

/-- The table of `MonthFromTime`: the month (0 for January to 11 for December) that
holds day `d` of a year, `leap` being 1 in a leap year and 0 otherwise. -/
def monthOfDay (leap d : Int) : Int :=
  if d < 31 then 0
  else if d < 59 + leap then 1
  else if d < 90 + leap then 2
  else if d < 120 + leap then 3
  else if d < 151 + leap then 4
  else if d < 181 + leap then 5
  else if d < 212 + leap then 6
  else if d < 243 + leap then 7
  else if d < 273 + leap then 8
  else if d < 304 + leap then 9
  else if d < 334 + leap then 10
  else 11

/-- `MonthFromTime(t)`. -/
def MonthFromTime (t : Int) : Int :=
  monthOfDay (leapDay (YearFromTime t)) (DayWithinYear t)

/-- `DateFromTime(t)`: the day of the month, from 1. -/
def DateFromTime (t : Int) : Int :=
  DayWithinYear t + 1 - monthStart (leapDay (YearFromTime t)) (MonthFromTime t)

/-- `MakeDay(year, month, date)` on integers: the day number of the first day of the
month, carried into the right year, plus `date - 1`. -/
def MakeDay (year month date : Int) : Int :=
  let ym := year + month / 12
  let mn := month % 12
  DayFromYear ym + monthStart (leapDay ym) mn + date - 1

/-- `MakeDate(day, time)`. -/
def MakeDate (day time : Int) : Int := day * msPerDay + time

/-- A `Date` object, by how it was made. -/
inductive JSDate where
  /-- A date whose time value is NaN ("Invalid Date"). -/
  | invalid : JSDate
  /-- A date made from calendar fields read in the local time zone; `t` is the local
  time, in milliseconds from the local midnight that starts 1970. -/
  | ofLocal (t : Int) : JSDate
  /-- A date made from a time value (milliseconds from the epoch, UTC). -/
  | ofTimeValue (tv : Int) : JSDate
deriving DecidableEq, Repr

/-- `new Date(year, month, date)`: a year from 0 to 99 means 1900 to 1999, and a
non-finite argument gives an invalid date. -/
def newDate (year month date : JSNumber) : JSDate :=
  match year.toInteger, month.toInteger, date.toInteger with
  | some y, some m, some dt =>
    let yr := if 0 ≤ y ∧ y ≤ 99 then 1900 + y else y
    JSDate.ofLocal (MakeDate (MakeDay yr m dt) 0)
  | _, _, _ => JSDate.invalid

/-- `TimeClip`: a time value further than 100 000 000 days from the epoch is NaN. -/
def timeClip (tv : Int) : JSNumber :=
  if tv.natAbs ≤ 8640000000000000 then JSNumber.ofInt tv else JSNumber.nan

/-- The time value of a date, which is what `<` and `>` compare. -/
def JSDate.timeValue (host : Host) : JSDate → JSNumber
  | JSDate.invalid => JSNumber.nan
  | JSDate.ofLocal t => timeClip (host.utc t)
  | JSDate.ofTimeValue tv => timeClip tv

/-- The match of `/^(\d{1,2})\/(\d{1,2})\/(\d{4})$/`: the groups day, month, year.
Digits are not slashes, so the string matches exactly when its three pieces between
slashes have the right shapes. -/
def matchDMY (s : Str) : Option (Str × Str × Str) :=
  match split '/' s with
  | [day, month, year] =>
    if day.all isDigit ∧ (day.length = 1 ∨ day.length = 2) ∧
       month.all isDigit ∧ (month.length = 1 ∨ month.length = 2) ∧
       year.all isDigit ∧ year.length = 4 then some (day, month, year)
    else none
  | _ => none

/-- The match of `/^([A-Za-z]{3})\s(\d{4})$/`: the groups month name and year. -/
def matchMonthYear (s : Str) : Option (Str × Str) :=
  match s with
  | [a, b, c, sp, y1, y2, y3, y4] =>
    if isAsciiLetter a ∧ isAsciiLetter b ∧ isAsciiLetter c ∧ isWhiteSpace sp ∧
       isDigit y1 ∧ isDigit y2 ∧ isDigit y3 ∧ isDigit y4 then some ([a, b, c], [y1, y2, y3, y4])
    else none
  | _ => none

/-- The table `monthMap`. -/
def monthMap : List (Str × Nat) :=
  [("Jan".toList, 0), ("Feb".toList, 1), ("Mar".toList, 2), ("Apr".toList, 3),
   ("May".toList, 4), ("Jun".toList, 5), ("Jul".toList, 6), ("Aug".toList, 7),
   ("Sep".toList, 8), ("Oct".toList, 9), ("Nov".toList, 10), ("Dec".toList, 11)]

/-- `new Date(dateStr)`, the host's parse of a string.  It returns an invalid date for
a string it cannot parse; it does not throw. -/
def newDateOfString (host : Host) (dateStr : Str) : JSDate :=
  match host.parseDate dateStr with
  | some tv => JSDate.ofTimeValue tv
  | none => JSDate.invalid

/-- `parseDateToSortable(dateStr)` for a string argument.  The `try` block holds one
expression, `new Date(dateStr)`, which cannot throw, so the `catch` is never entered. -/
def parseDateToSortable (host : Host) (dateStr : Str) : JSDate :=
  if dateStr = [] then JSDate.ofTimeValue 0
  else
    match matchDMY dateStr with
    | some (day, month, year) =>
      newDate (parseInt year) ((parseInt month).sub (JSNumber.ofNat 1)) (parseInt day)
    | none =>
      match matchMonthYear dateStr with
      | some (monthName, year) =>
        match monthMap.lookup monthName with
        | some monthIndex => newDate (parseInt year) (JSNumber.ofNat monthIndex) (JSNumber.ofNat 1)
        | none => newDateOfString host dateStr
      | none => newDateOfString host dateStr

/-- The number of days of month `m` (1 for January to 12 for December) of year `y`. -/
def daysInMonth (y m : Int) : Int :=
  if m = 2 then 28 + leapDay y
  else if m = 4 ∨ m = 6 ∨ m = 9 ∨ m = 11 then 30
  else 31

/-! ## Filter, sort and module state -/

/-- The two values `currentSortDirection` takes, `'asc'` and `'desc'`. -/
inductive Direction where
  | asc : Direction
  | desc : Direction
deriving DecidableEq, Repr

/-- The module variables of the script; `searchInput.value` is passed to `filterData`
as an argument. -/
structure State where
  breachesData : List Record
  filteredData : List Record
  currentSortColumn : Str
  currentSortDirection : Direction
deriving DecidableEq, Repr

/-- The search term of `filterData`: `searchInput.value.toLowerCase().trim()`. -/
def searchTerm (host : Host) (input : Str) : Str := trim (host.toLowerCase input)

/-- The callback of `breachesData.filter` in `filterData`, as the truth value `filter`
reads from it.  `none` is the `TypeError` raised by a method call on `undefined`, for a
record without one of the five columns read unguarded.  The disjunction is evaluated
left to right and stops at the first true operand. -/
def matchesSearch (host : Host) (term : Str) (breach : Record) : Option Bool :=
  if term = [] then some true
  else
    match breach.get "nom".toList with
    | none => none
    | some nom =>
      if includes (host.toLowerCase nom) term then some true
      else
        match breach.get "description".toList with
        | none => none
        | some description =>
          if includes (host.toLowerCase description) term then some true
          else
            match breach.get "header".toList with
            | none => none
            | some header =>
              if includes (host.toLowerCase header) term then some true
              else
                match breach.get "date_breach".toList with
                | none => none
                | some dateBreach =>
                  if includes dateBreach term then some true
                  else
                    match breach.get "date_upload_arcade".toList with
                    | none => none
                    | some dateUpload =>
                      if includes dateUpload term then some true
                      else
                        match breach.get "affected_accounts".toList with
                        | none => some false
                        | some affected =>
                          some (!affected.isEmpty && includes (host.toLowerCase affected) term)

/-- `array.filter(callback)` for a callback that may throw: the elements kept, in
order, or the exception. -/
def filterThrowing (callback : Record → Option Bool) : List Record → Option (List Record)
  | [] => some []
  | breach :: rest =>
    match callback breach with
    | none => none
    | some keep =>
      match filterThrowing callback rest with
      | none => none
      | some kept => some (if keep then breach :: kept else kept)

/-- A comparison key: what `<` and `>` are applied to in the comparator of
`applySorting`.  Dates are compared by their time values; strings by their code
units.  The keys of one column are all of one kind. -/
inductive Key where
  | number (x : JSNumber) : Key
  | text (units : List Nat) : Key
deriving DecidableEq, Repr

/-- `a < b` on two keys of the same kind. -/
def Key.lt : Key → Key → Bool
  | Key.number x, Key.number y => x.lt y
  | Key.text a, Key.text b => codeUnitsLt a b
  | _, _ => false

/-- The comparison key of a record: `a[column] || ''`, converted as the comparator of
`applySorting` converts it for the column. -/
def sortKey (host : Host) (column : Str) (a : Record) : Key :=
  let aVal := (a.get column).getD []
  if column = "date_breach".toList ∨ column = "date_upload_arcade".toList then
    Key.number ((parseDateToSortable host aVal).timeValue host)
  else if column = "clean".toList then
    Key.number (parseInt aVal)
  else if column = "affected_accounts".toList then
    Key.number (parseSizeToNumber aVal)
  else
    Key.text (codeUnits (host.toLowerCase aVal))

/-- The last three lines of the comparator of `applySorting`. -/
def compareKeys (direction : Direction) (aVal bVal : Key) : Int :=
  if aVal.lt bVal then (if direction = Direction.asc then -1 else 1)
  else if bVal.lt aVal then (if direction = Direction.asc then 1 else -1)
  else 0

/-- The comparator passed to `sort` by `applySorting`. -/
def compareRecords (host : Host) (column : Str) (direction : Direction)
    (a b : Record) : Int :=
  compareKeys direction (sortKey host column a) (sortKey host column b)

/-- `array.sort(comparator)`: a stable sort, which ECMAScript requires whenever the
comparator is consistent; here by insertion, an element going before the first later
element it does not compare above. -/
def sortBy (comparator : Record → Record → Int) (data : List Record) : List Record :=
  data.insertionSort (fun a b => comparator a b ≤ 0)

/-- `applySorting(column, direction)`, on the array `filteredData`. -/
def applySorting (host : Host) (column : Str) (direction : Direction)
    (filteredData : List Record) : List Record :=
  sortBy (compareRecords host column direction) filteredData

/-- `filterData()`, for the text `input` in the search box.  `none` is the `TypeError`
of the filter callback, which leaves the module variables as they were.  The rendering
done by `displayData` is outside the state. -/
def filterData (host : Host) (input : Str) (s : State) : Option State :=
  match filterThrowing (matchesSearch host (searchTerm host input)) s.breachesData with
  | none => none
  | some kept =>
    if s.currentSortColumn ≠ [] then
      some { s with
        filteredData := applySorting host s.currentSortColumn s.currentSortDirection kept }
    else some { s with filteredData := kept }

/-- `direction === 'asc' ? 'desc' : 'asc'`. -/
def Direction.toggle : Direction → Direction
  | Direction.asc => Direction.desc
  | Direction.desc => Direction.asc

/-- `sortTable(column)`.  The header highlight and the rendering are outside the
state. -/
def sortTable (host : Host) (column : Str) (s : State) : State :=
  let s1 : State :=
    if s.currentSortColumn = column then
      { s with currentSortDirection := s.currentSortDirection.toggle }
    else
      { s with currentSortColumn := column, currentSortDirection := Direction.asc }
  { s1 with filteredData := applySorting host column s1.currentSortDirection s1.filteredData }

/-- The view the claim about the filter describes: the term, lower-cased and trimmed,
is empty or occurs in the lower-cased text of one of the six fields, the last one
only when it is present and non-empty. -/
def claimedMatch (host : Host) (input : Str) (breach : Record) : Bool :=
  let term := searchTerm host input
  term.isEmpty ||
  ["nom", "description", "header", "date_breach", "date_upload_arcade"].any (fun column =>
    includes (host.toLowerCase ((breach.get column.toList).getD [])) term) ||
  (match breach.get "affected_accounts".toList with
   | none => false
   | some affected => !affected.isEmpty && includes (host.toLowerCase affected) term)

/-- The place of a number in the order `<` puts on the numbers other than NaN: minus
infinity, the finite numbers by value, plus infinity. -/
def numRank : JSNumber → Lex (Int × Int)
  | JSNumber.inf true => toLex (-1, 0)
  | JSNumber.fin negative mag => toLex (0, signedUnits negative mag)
  | JSNumber.inf false => toLex (1, 0)
  | JSNumber.nan => toLex (2, 0)

/-- A sample record: the breach `Acme`, dated `Jan 2021`. -/
def acmeRecord : Record :=
  [("nom".toList, "Acme".toList), ("date_breach".toList, "Jan 2021".toList),
   ("date_upload_arcade".toList, "01/02/2021".toList), ("header".toList, "email".toList),
   ("clean".toList, "1".toList), ("affected_accounts".toList, "1.5M".toList),
   ("description".toList, "Leak".toList)]

/-- A sample record: the breach `Beta`, dated `Mar 2019`. -/
def betaRecord : Record :=
  [("nom".toList, "Beta".toList), ("date_breach".toList, "Mar 2019".toList),
   ("date_upload_arcade".toList, "11/12/2019".toList), ("header".toList, "pass".toList),
   ("clean".toList, "0".toList), ("affected_accounts".toList, "2K".toList),
   ("description".toList, "Dump".toList)]

/-! # Theorems

## The line parser -/

theorem lineStateAfter_concat (p : Str) (c : Char) :
    lineStateAfter (p ++ [c]) = parseCSVLineStep (lineStateAfter p) c := by
  simp [lineStateAfter, List.foldl_append]

theorem quotesBefore_append (p q : Str) (i : Nat) (h : i ≤ p.length) :
    quotesBefore (p ++ q) i = quotesBefore p i := by
  simp [quotesBefore, List.take_append_of_le_length h]

theorem isSplitComma_append (p q : Str) (i : Nat) (h : i < p.length) :
    isSplitComma (p ++ q) i = isSplitComma p i := by
  simp [isSplitComma, quotesBefore_append p q i (Nat.le_of_lt h), List.getElem?_append_left h]

theorem keptChar_append (p q : Str) (i : Nat) (h : i < p.length) :
    keptChar (p ++ q) i = keptChar p i := by
  simp [keptChar, isSplitComma_append p q i h, List.getElem?_append_left h]

theorem splitCommas_concat (p : Str) (c : Char) :
    (List.range (p ++ [c]).length).filter (isSplitComma (p ++ [c])) =
      (List.range p.length).filter (isSplitComma p) ++
        (if isSplitComma (p ++ [c]) p.length = true then [p.length] else []) := by
  rw [List.length_append, List.length_singleton, List.range_succ, List.filter_append]
  congr 1
  · apply List.filter_congr
    intro i hi
    exact isSplitComma_append p [c] i (List.mem_range.mp hi)
  · by_cases h : isSplitComma (p ++ [c]) p.length = true <;> simp [List.filter, h]

theorem keptChars_concat (p : Str) (c : Char) :
    (List.range (p ++ [c]).length).filterMap (keptChar (p ++ [c])) =
      (List.range p.length).filterMap (keptChar p) ++
        (keptChar (p ++ [c]) p.length).toList := by
  rw [List.length_append, List.length_singleton, List.range_succ, List.filterMap_append]
  congr 1
  · apply List.filterMap_congr
    intro i hi
    exact keptChar_append p [c] i (List.mem_range.mp hi)

theorem isSplitComma_last (p : Str) (c : Char) :
    isSplitComma (p ++ [c]) p.length = (c == ',' && p.count '"' % 2 == 0) := by
  simp [isSplitComma, quotesBefore, List.take_append_of_le_length (Nat.le_refl p.length)]

theorem odd_succ_eq_not (n : Nat) : ((n + 1) % 2 == 1) = !(n % 2 == 1) := by
  rcases Nat.mod_two_eq_zero_or_one n with h | h <;> simp [Nat.add_mod, h]

/-- The invariant of the loop of `parseCSVLine`. -/
theorem lineStateAfter_spec (line : Str) :
    (lineStateAfter line).inQuotes = (line.count '"' % 2 == 1) ∧
    (lineStateAfter line).values.length =
      ((List.range line.length).filter (isSplitComma line)).length ∧
    (∀ field ∈ (lineStateAfter line).values, '"' ∉ field) ∧
    '"' ∉ (lineStateAfter line).current ∧
    (lineStateAfter line).values.flatten ++ (lineStateAfter line).current =
      (List.range line.length).filterMap (keptChar line) := by
  induction line using List.reverseRecOn with
  | nil => simp [lineStateAfter]
  | append_singleton p c ih =>
    obtain ⟨hq, hlen, hval, hcur, hkept⟩ := ih
    rw [lineStateAfter_concat, splitCommas_concat, keptChars_concat, isSplitComma_last]
    have hk : keptChar (p ++ [c]) p.length =
        if c = '"' ∨ (c == ',' && p.count '"' % 2 == 0) = true then none else some c := by
      simp [keptChar, isSplitComma_last]
    rw [hk]
    by_cases h1 : c = '"'
    · subst h1
      simp only [parseCSVLineStep, if_true]
      refine ⟨?_, ?_, hval, hcur, ?_⟩
      · simp [hq, List.count_append, odd_succ_eq_not]
      · simp [hlen]
      · simp [hkept]
    · by_cases h2 : c = ','
      · subst h2
        by_cases h3 : (lineStateAfter p).inQuotes = false
        · have hpar : p.count '"' % 2 = 0 := by
            rw [hq] at h3; simp at h3; omega
          simp only [parseCSVLineStep, h1, if_false, h3, and_self, if_true]
          refine ⟨?_, ?_, ?_, ?_, ?_⟩
          · simp [h3, List.count_append]; omega
          · simp [hlen, hpar]
          · intro field hf
            rcases List.mem_append.mp hf with hf | hf
            · exact hval field hf
            · simp at hf; subst hf; exact hcur
          · simp
          · simp [hpar, hkept]
        · have hin : (lineStateAfter p).inQuotes = true := by
            cases hb : (lineStateAfter p).inQuotes <;> simp_all
          have hpar : p.count '"' % 2 = 1 := by
            rw [hq] at hin; simpa using hin
          simp only [parseCSVLineStep, h1, if_false, hin, and_false, Bool.true_eq_false]
          refine ⟨?_, ?_, hval, ?_, ?_⟩
          · simp [hin, List.count_append]; omega
          · simp [hlen, hpar]
          · simp [hcur]
          · simp [hpar, ← hkept]
      · simp only [parseCSVLineStep, h1, if_false, h2, false_and]
        refine ⟨?_, ?_, hval, ?_, ?_⟩
        · have : List.count '"' [c] = 0 := by simp [List.count_singleton]; exact fun h => h1 h
          simp [hq, List.count_append, this]
        · simp [hlen, h2]
        · simp [hcur]; exact fun h => h1 h.symm
        · simp [h1, h2, ← hkept]

/-! ## Records built by `parseCSV` -/

theorem Record.get_replace_same (row : Record) (key value : Str)
    (h : (row.get key).isSome = true) : (row.replace key value).get key = some value := by
  induction row with
  | nil => simp [Record.get] at h
  | cons kv rest ih =>
    obtain ⟨k, v⟩ := kv
    by_cases hk : k = key
    · simp [Record.replace, Record.get, hk]
    · simp only [Record.get, hk, if_false] at h
      simp [Record.replace, Record.get, hk, ih h]

theorem Record.get_replace_other (row : Record) (key value other : Str) (h : key ≠ other) :
    (row.replace key value).get other = row.get other := by
  induction row with
  | nil => simp [Record.replace]
  | cons kv rest ih =>
    obtain ⟨k, v⟩ := kv
    by_cases hk : k = key
    · subst hk
      simp [Record.replace, Record.get, h]
    · by_cases ho : k = other
      · simp [Record.replace, Record.get, hk, ho.symm ▸ hk, ho]
      · simp [Record.replace, Record.get, hk, ho, ih]

theorem Record.get_append_single (row : Record) (key value other : Str) :
    Record.get (row ++ [(key, value)]) other =
      if (row.get other).isSome then row.get other
      else if key = other then some value else none := by
  induction row with
  | nil => by_cases h : key = other <;> simp [Record.get, h]
  | cons kv rest ih =>
    obtain ⟨k, v⟩ := kv
    by_cases hk : k = other
    · simp [Record.get, hk]
    · simp [Record.get, hk, ih]

theorem Record.get_set_same (row : Record) (key value : Str)
    (hproto : key ≠ "__proto__".toList) : (row.set key value).get key = some value := by
  unfold Record.set
  rw [if_neg hproto]
  by_cases h : (row.get key).isSome = true
  · rw [if_pos h]; exact Record.get_replace_same row key value h
  · rw [if_neg h, Record.get_append_single]; simp [h]

theorem Record.get_set_other (row : Record) (key value other : Str) (h : key ≠ other) :
    (row.set key value).get other = row.get other := by
  unfold Record.set
  by_cases hproto : key = "__proto__".toList
  · rw [if_pos hproto]
  · rw [if_neg hproto]
    by_cases hs : (row.get key).isSome = true
    · rw [if_pos hs]; exact Record.get_replace_other row key value other h
    · rw [if_neg hs, Record.get_append_single]
      cases hg : row.get other <;> simp [h]

theorem fillRow_get_untouched (values : List Str) (headers : List Str) (index : Nat)
    (row : Record) (key : Str) (h : ∀ header ∈ headers, trim header ≠ key) :
    (fillRow values headers index row).get key = row.get key := by
  induction headers generalizing index row with
  | nil => rfl
  | cons header rest ih =>
    simp only [fillRow]
    rw [ih _ _ (fun x hx => h x (List.mem_cons_of_mem _ hx))]
    exact Record.get_set_other _ _ _ _ (h header (List.mem_cons_self _ _))

theorem fillRow_get (values : List Str) (headers : List Str) (index : Nat) (row : Record)
    (i : Nat) (header : Str) (hi : headers.get? i = some header)
    (hproto : trim header ≠ "__proto__".toList)
    (hlast : ∀ j later, i < j → headers.get? j = some later → trim later ≠ trim header) :
    (fillRow values headers index row).get (trim header) =
      some (trim (values.getD (index + i) [])) := by
  induction headers generalizing index row i with
  | nil => simp at hi
  | cons first rest ih =>
    cases i with
    | zero =>
      simp at hi
      subst hi
      simp only [fillRow]
      rw [fillRow_get_untouched]
      · simpa using Record.get_set_same row (trim first) _ hproto
      · intro later hl
        obtain ⟨j, hj⟩ := List.get?_of_mem hl
        exact hlast (j + 1) later (Nat.succ_pos j) (by simpa using hj)
    | succ k =>
      simp only [fillRow]
      have hk : rest.get? k = some header := by simpa using hi
      have := ih (index + 1) (row.set (trim first) (trim (values.getD index []))) k hk
        (fun j later hj hl => hlast (j + 1) later (Nat.succ_lt_succ hj) (by simpa using hl))
      rw [this]
      congr 3
      omega

theorem parseCSV_foldl (headers : List Str) (data : List Record) (lines : List Str) :
    lines.foldl (parseCSVStep headers) data =
      data ++ (lines.filter (fun line => (parseCSVLine line).length = headers.length)).map
        (fun line => fillRow (parseCSVLine line) headers 0 []) := by
  induction lines generalizing data with
  | nil => simp
  | cons line rest ih =>
    rw [List.foldl_cons, ih]
    by_cases h : (parseCSVLine line).length = headers.length
    · simp [parseCSVStep, h, List.filter]
    · simp [parseCSVStep, h, List.filter]

theorem splitsBefore_append (p q : Str) (i : Nat) (h : i ≤ p.length) :
    splitsBefore (p ++ q) i = splitsBefore p i := by
  unfold splitsBefore
  congr 1
  apply List.filter_congr
  intro k hk
  exact isSplitComma_append p q k (Nat.lt_of_lt_of_le (List.mem_range.mp hk) h)

theorem splitsBefore_le (p : Str) (i : Nat) (h : i ≤ p.length) :
    splitsBefore p i ≤ splitsBefore p p.length := by
  unfold splitsBefore
  exact ((List.range_sublist.mpr h).filter _).length_le

theorem fieldAt_concat (p : Str) (c : Char) (j : Nat) :
    fieldAt (p ++ [c]) j = fieldAt p j ++
      (if splitsBefore p p.length = j then (keptChar (p ++ [c]) p.length).toList else []) := by
  unfold fieldAt
  rw [List.length_append, List.length_singleton, List.range_succ, List.filterMap_append]
  congr 1
  · apply List.filterMap_congr
    intro i hi
    have hlt := List.mem_range.mp hi
    rw [splitsBefore_append p [c] i (Nat.le_of_lt hlt), keptChar_append p [c] i hlt]
  · rw [List.filterMap_cons, List.filterMap_nil,
      splitsBefore_append p [c] p.length (Nat.le_refl _)]
    by_cases h : splitsBefore p p.length = j
    · simp only [h, if_true]
      cases keptChar (p ++ [c]) p.length <;> rfl
    · simp only [h, if_false]

theorem fieldAt_eq_nil (q : Str) (j : Nat) (h : ∀ i, i < q.length → splitsBefore q i ≠ j) :
    fieldAt q j = [] := by
  unfold fieldAt
  apply List.filterMap_eq_nil_iff.mpr
  intro i hi
  simp only [h i (List.mem_range.mp hi), if_false]

/-- The fields in the loop state of `parseCSVLine`, read by positions. -/
theorem lineStateAfter_fields (line : Str) :
    (lineStateAfter line).values =
      (List.range (splitsBefore line line.length)).map (fieldAt line) ∧
    (lineStateAfter line).current = fieldAt line (splitsBefore line line.length) := by
  induction line using List.reverseRecOn with
  | nil => exact ⟨rfl, rfl⟩
  | append_singleton p c ih =>
    obtain ⟨hvalues, hcurrent⟩ := ih
    have hq := (lineStateAfter_spec p).1
    have hlast := isSplitComma_last p c
    have hk : keptChar (p ++ [c]) p.length =
        if c = '"' ∨ (c == ',' && p.count '"' % 2 == 0) = true then none else some c := by
      simp [keptChar, isSplitComma_last]
    have hcount : splitsBefore (p ++ [c]) (p ++ [c]).length =
        splitsBefore p p.length + (if isSplitComma (p ++ [c]) p.length = true then 1 else 0) := by
      unfold splitsBefore
      rw [splitCommas_concat, List.length_append]
      by_cases h : isSplitComma (p ++ [c]) p.length = true <;> simp [h]
    have hold : (List.range (splitsBefore p p.length)).map (fieldAt (p ++ [c])) =
        (List.range (splitsBefore p p.length)).map (fieldAt p) := by
      apply List.map_congr_left
      intro j hj
      have hne : splitsBefore p p.length ≠ j := Nat.ne_of_gt (List.mem_range.mp hj)
      rw [fieldAt_concat, if_neg hne, List.append_nil]
    have hsame : fieldAt (p ++ [c]) (splitsBefore p p.length) =
        fieldAt p (splitsBefore p p.length) ++ (keptChar (p ++ [c]) p.length).toList := by
      rw [fieldAt_concat, if_pos rfl]
    rw [lineStateAfter_concat]
    by_cases h1 : c = '"'
    · have hns : isSplitComma (p ++ [c]) p.length = false := by
        rw [hlast, h1]; rfl
      have hkn : keptChar (p ++ [c]) p.length = none := by rw [hk]; simp [h1]
      have hstep : parseCSVLineStep (lineStateAfter p) c =
          { lineStateAfter p with inQuotes := !(lineStateAfter p).inQuotes } := by
        simp [parseCSVLineStep, h1]
      rw [hcount, hns, hstep]
      simp only [Bool.false_eq_true, if_false, Nat.add_zero]
      refine ⟨?_, ?_⟩
      · rw [hvalues, hold]
      · rw [hcurrent, hsame, hkn]; simp
    · by_cases h2 : c = ','
      · by_cases h3 : (lineStateAfter p).inQuotes = false
        · have hpar : p.count '"' % 2 = 0 := by
            rw [hq] at h3; simp at h3; omega
          have hs : isSplitComma (p ++ [c]) p.length = true := by
            rw [hlast]; simp [h2, hpar]
          have hkn : keptChar (p ++ [c]) p.length = none := by rw [hk]; simp [h2, hpar]
          have hstep : parseCSVLineStep (lineStateAfter p) c =
              { lineStateAfter p with
                values := (lineStateAfter p).values ++ [(lineStateAfter p).current],
                current := [] } := by
            simp [parseCSVLineStep, h1, h2, h3]
          have hcount2 : splitsBefore (p ++ [c]) (p ++ [c]).length =
              splitsBefore p p.length + 1 := by rw [hcount, if_pos hs]
          rw [hcount2, hstep]
          refine ⟨?_, ?_⟩
          · show (lineStateAfter p).values ++ [(lineStateAfter p).current] = _
            rw [List.range_succ, List.map_append, List.map_singleton, hold, hsame, hkn,
              hvalues, hcurrent]
            simp
          · show [] = _
            symm
            apply fieldAt_eq_nil
            intro i hi
            rw [List.length_append, List.length_singleton] at hi
            rw [splitsBefore_append p [c] i (Nat.le_of_lt_succ hi)]
            have := splitsBefore_le p i (Nat.le_of_lt_succ hi)
            omega
        · have hin : (lineStateAfter p).inQuotes = true := by
            cases hb : (lineStateAfter p).inQuotes <;> simp_all
          have hpar : p.count '"' % 2 = 1 := by
            rw [hq] at hin; simpa using hin
          have hns : isSplitComma (p ++ [c]) p.length = false := by
            rw [hlast]; simp [hpar]
          have hkn : keptChar (p ++ [c]) p.length = some c := by rw [hk]; simp [h1, hpar]
          have hstep : parseCSVLineStep (lineStateAfter p) c =
              { lineStateAfter p with current := (lineStateAfter p).current ++ [c] } := by
            simp [parseCSVLineStep, h1, h2, hin]
          rw [hcount, hns, hstep]
          simp only [Bool.false_eq_true, if_false, Nat.add_zero]
          refine ⟨?_, ?_⟩
          · rw [hvalues, hold]
          · rw [hcurrent, hsame, hkn]; rfl
      · have hns : isSplitComma (p ++ [c]) p.length = false := by
          rw [hlast]; simp [h2]
        have hkn : keptChar (p ++ [c]) p.length = some c := by rw [hk]; simp [h1, h2]
        have hstep : parseCSVLineStep (lineStateAfter p) c =
            { lineStateAfter p with current := (lineStateAfter p).current ++ [c] } := by
          simp [parseCSVLineStep, h1, h2]
        rw [hcount, hns, hstep]
        simp only [Bool.false_eq_true, if_false, Nat.add_zero]
        refine ⟨?_, ?_⟩
        · rw [hvalues, hold]
        · rw [hcurrent, hsame, hkn]; rfl

/-- C2: `parseCSVLine` splits only at the commas outside double quotes.  The number of
fields is one more than the number of commas preceded by an even number of quote
characters; field number `j` is exactly the run of characters that have `j` such
commas before them, without the quote characters and without those commas, so the
fields end at the splitting commas and nowhere else; no field contains a quote
character; every comma preceded by an odd number of quotes is kept as a character of
the field it lies in; and the line `"a,b",c` gives the two fields `a,b` and `c`. -/
theorem parseCSVLine_splits_outside_quotes (line : Str) :
    (parseCSVLine line).length =
      1 + ((List.range line.length).filter (isSplitComma line)).length ∧
    parseCSVLine line =
      (List.range (1 + ((List.range line.length).filter (isSplitComma line)).length)).map
        (fieldAt line) ∧
    (∀ field ∈ parseCSVLine line, '"' ∉ field) ∧
    (parseCSVLine line).flatten = (List.range line.length).filterMap (keptChar line) ∧
    (∀ i, isQuotedComma line i = true →
      keptChar line i = some ',' ∧
      ∃ field, (parseCSVLine line).get? (splitsBefore line i) = some field ∧ ',' ∈ field) ∧
    parseCSVLine "\"a,b\",c".toList = ["a,b".toList, "c".toList] ∧
    parseCSVLine "ab,cd".toList = ["ab".toList, "cd".toList] := by
  obtain ⟨_, hlen, hval, hcur, hkept⟩ := lineStateAfter_spec line
  obtain ⟨hvalues, hcurrent⟩ := lineStateAfter_fields line
  have hfields : parseCSVLine line =
      (List.range (1 + ((List.range line.length).filter (isSplitComma line)).length)).map
        (fieldAt line) := by
    show (lineStateAfter line).values ++ [(lineStateAfter line).current] = _
    rw [Nat.add_comm 1, List.range_succ, List.map_append, List.map_singleton]
    exact congrArg₂ _ hvalues (congrArg (fun x => [x]) hcurrent)
  refine ⟨?_, hfields, ?_, ?_, ?_, by decide, by decide⟩
  · simp [parseCSVLine, hlen]; omega
  · intro field hf
    rcases List.mem_append.mp hf with hf | hf
    · exact hval field hf
    · simp at hf; subst hf; exact hcur
  · simpa [parseCSVLine] using hkept
  · intro i hi
    simp only [isQuotedComma, Bool.and_eq_true, beq_iff_eq] at hi
    obtain ⟨hc, hodd⟩ := hi
    have hsplit : isSplitComma line i = false := by
      simp [isSplitComma, hc, hodd]
    have hkeep : keptChar line i = some ',' := by
      unfold keptChar
      rw [hc]
      simp [hsplit]
    have hilt : i < line.length := by
      have := List.get?_eq_some.mp hc
      exact this.1
    have hle : splitsBefore line i ≤ splitsBefore line line.length :=
      splitsBefore_le line i (Nat.le_of_lt hilt)
    refine ⟨hkeep, fieldAt line (splitsBefore line i), ?_, ?_⟩
    · rw [hfields, List.get?_eq_getElem?, List.getElem?_map, List.getElem?_range]
      · rfl
      · show splitsBefore line i < 1 + splitsBefore line line.length
        omega
    · unfold fieldAt
      apply List.mem_filterMap.mpr
      exact ⟨i, List.mem_range.mpr hilt, by simp [hkeep]⟩

/-- C1, the claim as stated fails: with the header `a,a` the data line `1,2` has the
two fields `1` and `2`, as many as the header, yet its record maps the header name at
position 0 to `2`, the value at position 1, not to `1`. -/
theorem parseCSV_duplicate_header_counterexample :
    (split ',' ((split '\n' (trim "a,a\n1,2".toList)).headD [])).map trim =
      ["a".toList, "a".toList] ∧
    (parseCSVLine "1,2".toList).map trim = ["1".toList, "2".toList] ∧
    (parseCSV "a,a\n1,2".toList).map (fun row => row.get "a".toList) =
      [some "2".toList] := by
  decide

/-- C1, amended: `parseCSV` returns exactly one record per data line (a line after the
first of the trimmed text split on newlines) whose `parseCSVLine` field count equals
the number of comma-separated header fields, in line order, and none for any other
line; so a header plus N such lines gives N records; and each record maps a trimmed
header name, other than `__proto__`, to the trimmed value at the last position that
carries the name, which is the same position when the trimmed names are distinct. -/
theorem parseCSV_records (csvText : Str) :
    parseCSV csvText =
      (((split '\n' (trim csvText)).tail).filter
        (fun line => (parseCSVLine line).length =
          (split ',' ((split '\n' (trim csvText)).headD [])).length)).map
        (fun line =>
          fillRow (parseCSVLine line) (split ',' ((split '\n' (trim csvText)).headD [])) 0 []) ∧
    ((∀ line ∈ (split '\n' (trim csvText)).tail, (parseCSVLine line).length =
        (split ',' ((split '\n' (trim csvText)).headD [])).length) →
      (parseCSV csvText).length = (split '\n' (trim csvText)).length - 1) ∧
    (∀ line i header,
      (split ',' ((split '\n' (trim csvText)).headD [])).get? i = some header →
      trim header ≠ "__proto__".toList →
      (∀ j later, i < j →
        (split ',' ((split '\n' (trim csvText)).headD [])).get? j = some later →
        trim later ≠ trim header) →
      (fillRow (parseCSVLine line) (split ',' ((split '\n' (trim csvText)).headD [])) 0 []).get
          (trim header) = some (trim ((parseCSVLine line).getD i []))) := by
  have hfold := parseCSV_foldl (split ',' ((split '\n' (trim csvText)).headD []))
    [] (split '\n' (trim csvText)).tail
  refine ⟨?_, ?_, ?_⟩
  · simpa [parseCSV] using hfold
  · intro hall
    have hfilter : ((split '\n' (trim csvText)).tail).filter
        (fun line => decide ((parseCSVLine line).length =
          (split ',' ((split '\n' (trim csvText)).headD [])).length)) =
        (split '\n' (trim csvText)).tail := by
      apply List.filter_eq_self.mpr
      intro line hl
      simpa using hall line hl
    simp only [parseCSV, hfold, List.nil_append, List.length_map, hfilter, List.length_tail]
  · intro line i header hi hproto hlast
    simpa using fillRow_get (parseCSVLine line) _ 0 [] i header hi hproto hlast

/-- The amended C1 at the text `a, b`, `1,2`, `3`, `"x,y",z`: the short line is
dropped and the two records map `a` and `b` to the trimmed values. -/
theorem parseCSV_records_witness :
    parseCSV "a, b\n1,2\n3\n\"x,y\",z\n".toList =
      [[("a".toList, "1".toList), ("b".toList, "2".toList)],
       [("a".toList, "x,y".toList), ("b".toList, "z".toList)]] ∧
    (fillRow (parseCSVLine "\"x,y\",z".toList) ["a".toList, " b".toList] 0 []).get
        (trim " b".toList) = some (trim ((parseCSVLine "\"x,y\",z".toList).getD 1 [])) :=
  ⟨by decide,
   (parseCSV_records "a, b\n1,2\n3\n\"x,y\",z\n".toList).2.2 "\"x,y\",z".toList 1 " b".toList
     (by decide) (by decide) (by intro j later hj hl; cases j with
       | zero => omega
       | succ k => cases k with
         | zero => omega
         | succ m => simp [split, trim] at hl)⟩

/-! ## The filter -/

theorem filterThrowing_sublist (callback : Record → Option Bool) (data kept : List Record)
    (h : filterThrowing callback data = some kept) : kept.Sublist data := by
  induction data generalizing kept with
  | nil =>
    simp [filterThrowing] at h
    subst h
    exact List.Sublist.slnil
  | cons breach rest ih =>
    simp only [filterThrowing] at h
    cases hc : callback breach with
    | none => simp [hc] at h
    | some keep =>
      cases hr : filterThrowing callback rest with
      | none => simp [hc, hr] at h
      | some keptRest =>
        simp only [hc, hr, Option.some.injEq] at h
        subst h
        cases keep
        · simpa using (ih keptRest hr).cons breach
        · simpa using (ih keptRest hr).cons₂ breach

theorem filterThrowing_all (callback : Record → Option Bool) (data : List Record)
    (h : ∀ breach ∈ data, callback breach = some true) :
    filterThrowing callback data = some data := by
  induction data with
  | nil => rfl
  | cons breach rest ih =>
    simp [filterThrowing, h breach (List.mem_cons_self _ _),
      ih (fun b hb => h b (List.mem_cons_of_mem _ hb))]

theorem filterThrowing_none (callback : Record → Option Bool) (data : List Record)
    (h : filterThrowing callback data = none) : ∃ breach ∈ data, callback breach = none := by
  induction data with
  | nil => simp [filterThrowing] at h
  | cons breach rest ih =>
    simp only [filterThrowing] at h
    cases hc : callback breach with
    | none => exact ⟨breach, List.mem_cons_self _ _, hc⟩
    | some keep =>
      cases hr : filterThrowing callback rest with
      | none =>
        obtain ⟨b, hb, hbn⟩ := ih hr
        exact ⟨b, List.mem_cons_of_mem _ hb, hbn⟩
      | some keptRest => simp [hc, hr] at h

theorem trim_blank (s : Str) (h : ∀ c ∈ s, isWhiteSpace c = true) : trim s = [] := by
  have : s.dropWhile isWhiteSpace = [] := by
    simpa [List.dropWhile_eq_nil_iff] using h
  simp [trim, this]

/-- C3, at the failing input: the record `acmeRecord`, whose breach date is
`Jan 2021`, searched with `jan`.  The claim keeps it, as `jan` occurs in the lower-cased
date; `filterData` compares the lower-cased term with the date as written and drops it.
The same record is found by `acme`, which the code compares with the lower-cased
name. -/
theorem filterData_misses_month_name :
    claimedMatch asciiHost "jan".toList acmeRecord = true ∧
    (filterData asciiHost "jan".toList ⟨[acmeRecord], [acmeRecord], [], Direction.asc⟩).map
      (fun s => s.filteredData) = some [] ∧
    (filterData asciiHost "acme".toList ⟨[acmeRecord], [acmeRecord], [], Direction.asc⟩).map
      (fun s => s.filteredData) = some [acmeRecord] := by
  decide

/-- C4: with no sort column set, `filterData` leaves the view a subsequence of the
baseline.  When it completes, the baseline is untouched and the view holds records of
the baseline only, unmodified and in their original relative order; it completes with
the whole baseline, in order, when the lower-cased and trimmed term is empty, which is
the case of an empty or white-space-only input that lower-casing leaves as it is; and
when it does not complete, a record lacks a text column and the state is not
written. -/
theorem filterData_view_sublist (host : Host) (input : Str) (s : State)
    (hcol : s.currentSortColumn = []) :
    (∀ s', filterData host input s = some s' →
      s'.breachesData = s.breachesData ∧ s'.filteredData.Sublist s.breachesData) ∧
    (searchTerm host input = [] →
      filterData host input s = some { s with filteredData := s.breachesData }) ∧
    ((∀ c ∈ input, isWhiteSpace c = true) → host.toLowerCase input = input →
      filterData host input s = some { s with filteredData := s.breachesData }) ∧
    (filterData host input s = none →
      ∃ breach ∈ s.breachesData, matchesSearch host (searchTerm host input) breach = none) := by
  have hempty : searchTerm host input = [] →
      filterData host input s = some { s with filteredData := s.breachesData } := by
    intro hterm
    have hall := filterThrowing_all (matchesSearch host (searchTerm host input)) s.breachesData
      (fun breach _ => by simp [matchesSearch, hterm])
    simp [filterData, hall, hcol]
  refine ⟨?_, hempty, ?_, ?_⟩
  · intro s' hs'
    unfold filterData at hs'
    cases hf : filterThrowing (matchesSearch host (searchTerm host input)) s.breachesData with
    | none => simp [hf] at hs'
    | some kept =>
      simp only [hf, hcol, ne_eq, not_true_eq_false, if_false, Option.some.injEq] at hs'
      subst hs'
      exact ⟨rfl, filterThrowing_sublist _ _ _ hf⟩
  · intro hblank hlower
    apply hempty
    simp [searchTerm, hlower, trim_blank input hblank]
  · intro hnone
    unfold filterData at hnone
    cases hf : filterThrowing (matchesSearch host (searchTerm host input)) s.breachesData with
    | none => exact filterThrowing_none _ _ hf
    | some kept =>
      simp only [hf, hcol, ne_eq, not_true_eq_false, if_false] at hnone
      exact absurd hnone (by simp)

/-- C4 at the baseline `acmeRecord`, `betaRecord` searched with `dump`: the view is
`betaRecord` alone. -/
theorem filterData_view_sublist_witness :
    filterData asciiHost "dump".toList ⟨[acmeRecord, betaRecord], [], [], Direction.desc⟩ =
      some ⟨[acmeRecord, betaRecord], [betaRecord], [], Direction.desc⟩ ∧
    [betaRecord].Sublist [acmeRecord, betaRecord] :=
  ⟨by decide,
   ((filterData_view_sublist asciiHost "dump".toList
      ⟨[acmeRecord, betaRecord], [], [], Direction.desc⟩ rfl).1
      ⟨[acmeRecord, betaRecord], [betaRecord], [], Direction.desc⟩ (by decide)).2⟩

/-! ## The sort toggle -/

theorem sortTable_column (host : Host) (column : Str) (s : State) :
    (sortTable host column s).currentSortColumn = column := by
  unfold sortTable
  by_cases h : s.currentSortColumn = column <;> simp [h]

theorem sortTable_direction (host : Host) (column : Str) (s : State) :
    (sortTable host column s).currentSortDirection =
      if s.currentSortColumn = column then s.currentSortDirection.toggle
      else Direction.asc := by
  unfold sortTable
  by_cases h : s.currentSortColumn = column <;> simp [h]

theorem sortTable_iterate_column (host : Host) (column : Str) (n : Nat) (s : State) :
    ((sortTable host column)^[n + 1] s).currentSortColumn = column := by
  rw [Function.iterate_succ_apply']
  exact sortTable_column host column _

/-- C10: `sortTable(C)` moves the sort state to `(C, opposite direction)` when `C` is
the current column and to `(C, ascending)` otherwise, and leaves the baseline alone;
so from any state, selecting a column `A` one or more times and then a different
column `B` leaves the state `(B, ascending)`. -/
theorem sortTable_transition (host : Host) (s : State) (columnC : Str) :
    (sortTable host columnC s).currentSortColumn = columnC ∧
    (s.currentSortColumn = columnC →
      (sortTable host columnC s).currentSortDirection = s.currentSortDirection.toggle) ∧
    (s.currentSortColumn ≠ columnC →
      (sortTable host columnC s).currentSortDirection = Direction.asc) ∧
    Direction.asc.toggle = Direction.desc ∧ Direction.desc.toggle = Direction.asc ∧
    (sortTable host columnC s).breachesData = s.breachesData ∧
    (∀ (columnA columnB : Str) (n : Nat), columnA ≠ columnB →
      (sortTable host columnB ((sortTable host columnA)^[n + 1] s)).currentSortColumn = columnB ∧
      (sortTable host columnB ((sortTable host columnA)^[n + 1] s)).currentSortDirection =
        Direction.asc) := by
  refine ⟨sortTable_column host columnC s, ?_, ?_, rfl, rfl, ?_, ?_⟩
  · intro h; rw [sortTable_direction, if_pos h]
  · intro h; rw [sortTable_direction, if_neg h]
  · unfold sortTable
    by_cases h : s.currentSortColumn = columnC <;> simp [h]
  · intro columnA columnB n hne
    refine ⟨sortTable_column host columnB _, ?_⟩
    rw [sortTable_direction, sortTable_iterate_column, if_neg hne]

/-- C10 at the state `(nom, descending)`: selecting `clean` three times and then `nom`
leaves `(nom, ascending)`. -/
theorem sortTable_transition_witness :
    (sortTable asciiHost "nom".toList ((sortTable asciiHost "clean".toList)^[2 + 1]
        ⟨[], [], "nom".toList, Direction.desc⟩)).currentSortColumn = "nom".toList ∧
    (sortTable asciiHost "nom".toList ((sortTable asciiHost "clean".toList)^[2 + 1]
        ⟨[], [], "nom".toList, Direction.desc⟩)).currentSortDirection = Direction.asc :=
  (sortTable_transition asciiHost ⟨[], [], "nom".toList, Direction.desc⟩ "nom".toList).2.2.2.2.2.2
    "clean".toList "nom".toList 2 (by decide)

/-! ## Doubles -/

theorem bitLength_le (k n j : Nat) (h : n < 2 ^ j) : bitLength k n ≤ j := by
  induction k generalizing n j with
  | zero =>
    unfold bitLength
    split
    · exact Nat.zero_le j
    · rename_i hn
      rcases Nat.eq_zero_or_pos j with hj | hj
      · subst hj; simp at h; exact absurd h hn
      · exact hj
  | succ k ih =>
    unfold bitLength
    split
    · exact ih n j h
    · rename_i hbig
      have hle : 2 ^ 2 ^ k ≤ n := Nat.le_of_not_lt hbig
      have hjk : 2 ^ k < j := by
        by_contra hcon
        have : 2 ^ j ≤ 2 ^ 2 ^ k := Nat.pow_le_pow_right (by norm_num) (Nat.le_of_not_lt hcon)
        omega
      have hdiv : n / 2 ^ 2 ^ k < 2 ^ (j - 2 ^ k) := by
        rw [Nat.div_lt_iff_lt_mul (Nat.pow_pos (by norm_num))]
        rw [← Nat.pow_add, Nat.sub_add_cancel (Nat.le_of_lt hjk)]
        exact h
      have := ih (n / 2 ^ 2 ^ k) (j - 2 ^ k) hdiv
      omega

theorem roundNearestEven_exact (k den : Nat) (hden : 0 < den) (hk : k < 2 ^ 53) :
    roundNearestEven (k * 2 ^ 1074 * den) den = k * 2 ^ 1074 := by
  have hq : k * 2 ^ 1074 * den / den = k * 2 ^ 1074 := Nat.mul_div_cancel _ hden
  have hlt : k * 2 ^ 1074 < 2 ^ (53 + 1074) := by
    rw [Nat.pow_add]
    exact Nat.mul_lt_mul_of_pos_right hk (Nat.pow_pos (by norm_num))
  have hshift : binadeShift (k * 2 ^ 1074) ≤ 1074 := by
    have := bitLength_le 12 _ _ hlt
    unfold binadeShift
    omega
  have hdvd : 2 ^ binadeShift (k * 2 ^ 1074) ∣ k * 2 ^ 1074 :=
    Dvd.dvd.mul_left (Nat.pow_dvd_pow 2 hshift) k
  have hlo : k * 2 ^ 1074 / 2 ^ binadeShift (k * 2 ^ 1074) * 2 ^ binadeShift (k * 2 ^ 1074) =
      k * 2 ^ 1074 := Nat.div_mul_cancel hdvd
  have hpos : 0 < 2 ^ binadeShift (k * 2 ^ 1074) * den :=
    Nat.mul_pos (Nat.pow_pos (by norm_num)) hden
  unfold roundNearestEven
  simp only [hq, hlo, Nat.sub_self, Nat.mul_zero, hpos, if_true]

theorem ofRatio_exact (negative : Bool) (k den : Nat) (hden : 0 < den) (hk : k < 2 ^ 53) :
    JSNumber.ofRatio negative (k * den) den = JSNumber.fin negative (k * 2 ^ 1074) := by
  have hr : roundNearestEven (k * den * 2 ^ 1074) den = k * 2 ^ 1074 := by
    rw [Nat.mul_right_comm]
    exact roundNearestEven_exact k den hden hk
  have hsmall : ¬ (2 ^ 2098 ≤ k * 2 ^ 1074) := by
    have h1 : k * 2 ^ 1074 < 2 ^ 53 * 2 ^ 1074 :=
      Nat.mul_lt_mul_of_pos_right hk (Nat.pow_pos (by norm_num))
    have h2 : 2 ^ 53 * 2 ^ 1074 ≤ 2 ^ 2098 := by
      rw [← Nat.pow_add]
      exact Nat.pow_le_pow_right (by norm_num) (by norm_num)
    omega
  unfold JSNumber.ofRatio
  simp only [hr, hsmall, if_false]

theorem ofNat_exact (n : Nat) (hn : n < 2 ^ 53) :
    JSNumber.ofNat n = JSNumber.fin false (n * 2 ^ 1074) := by
  have := ofRatio_exact false n 1 Nat.one_pos hn
  rwa [Nat.mul_one] at this

theorem mul_ofNat_exact (a b : Nat) (ha : a < 2 ^ 53) (hb : b < 2 ^ 53)
    (hab : a * b < 2 ^ 53) :
    (JSNumber.ofNat a).mul (JSNumber.ofNat b) = JSNumber.ofNat (a * b) := by
  rw [ofNat_exact a ha, ofNat_exact b hb, ofNat_exact (a * b) hab]
  show JSNumber.ofRatio (false != false) (a * 2 ^ 1074 * (b * 2 ^ 1074)) (2 ^ 2148) = _
  have h1 : a * 2 ^ 1074 * (b * 2 ^ 1074) = a * b * 2 ^ 2148 := by
    rw [show (2148 : Nat) = 1074 + 1074 from rfl, Nat.pow_add]
    ring
  rw [h1, ofRatio_exact _ (a * b) (2 ^ 2148) (Nat.pow_pos (by norm_num)) hab]
  rfl

/-! ## Quantity normalization -/

theorem isDigit_facts (c : Char) (h : isDigit c = true) :
    isWhiteSpace c = false ∧ c ≠ '-' ∧ c ≠ '+' ∧ c ≠ 'I' ∧ c ≠ '.' ∧ c ≠ '/' ∧
    c ≠ 'e' ∧ c ≠ 'E' ∧ isUnitLetter c = false := by
  simp only [isDigit, Bool.and_eq_true, decide_eq_true_eq] at h
  refine ⟨?_, ?_, ?_, ?_, ?_, ?_, ?_, ?_, ?_⟩
  · simp only [isWhiteSpace, Bool.or_eq_false_iff, beq_eq_false_iff_ne, Bool.and_eq_false_iff,
      decide_eq_false_iff_not]
    omega
  all_goals first
    | (intro hc; subst hc; revert h; decide)
    | (simp only [isUnitLetter, Bool.or_eq_false_iff, beq_eq_false_iff_ne]
       refine ⟨⟨⟨⟨⟨?_, ?_⟩, ?_⟩, ?_⟩, ?_⟩, ?_⟩ <;> (intro hc; subst hc; revert h; decide))

theorem isUnitLetter_not_digitOrDot (u : Char) (h : isUnitLetter u = true) :
    isDigitOrDot u = false := by
  simp only [isUnitLetter, Bool.or_eq_true, beq_iff_eq] at h
  rcases h with ((((h | h) | h) | h) | h) | h <;> subst h <;> decide

theorem takeWhile_all (p : Char → Bool) (s rest : Str) (hs : ∀ c ∈ s, p c = true)
    (hrest : ∀ c, rest.head? = some c → p c = false) :
    (s ++ rest).takeWhile p = s ∧ (s ++ rest).dropWhile p = rest := by
  induction s with
  | nil =>
    cases rest with
    | nil => simp
    | cons c cs => simp [List.takeWhile, List.dropWhile, hrest c rfl]
  | cons d ds ih =>
    have hd := hs d (List.mem_cons_self _ _)
    have := ih (fun c hc => hs c (List.mem_cons_of_mem _ hc))
    simp [List.takeWhile, List.dropWhile, hd, this]

/-- `parseFloat` on digits with an optional point: the nearest double to the number
written. -/
theorem parseFloat_decimal (whole fraction : Str) (point : Bool)
    (hw : ∀ c ∈ whole, isDigit c = true) (hf : ∀ c ∈ fraction, isDigit c = true)
    (hdigit : whole ≠ [] ∨ fraction ≠ []) (hpoint : point = false → fraction = []) :
    parseFloat (whole ++ (if point then '.' :: fraction else [])) =
      JSNumber.ofRatio false (radixValue 10 (whole ++ fraction)) (10 ^ fraction.length) := by
  -- the first character is a digit or the point
  have hhead : ∃ c cs, whole ++ (if point then '.' :: fraction else []) = c :: cs ∧
      (isDigit c = true ∨ c = '.') := by
    cases whole with
    | nil =>
      cases point with
      | false => simp [hpoint rfl] at hdigit
      | true => exact ⟨'.', fraction, by simp, Or.inr rfl⟩
    | cons d ds => exact ⟨d, _, rfl, Or.inl (hw d (List.mem_cons_self _ _))⟩
  obtain ⟨c, cs, hcs, hc⟩ := hhead
  have hfacts : isWhiteSpace c = false ∧ c ≠ '-' ∧ c ≠ '+' ∧ c ≠ 'I' := by
    rcases hc with hc | hc
    · obtain ⟨h1, h2, h3, h4, _⟩ := isDigit_facts c hc
      exact ⟨h1, h2, h3, h4⟩
    · subst hc; decide
  obtain ⟨hws, hminus, hplus, hI⟩ := hfacts
  have htw := takeWhile_all isDigit whole (if point then '.' :: fraction else []) hw
    (by cases point <;> simp; decide)
  have htf := takeWhile_all isDigit fraction [] hf (by simp)
  simp only [List.append_nil] at htf
  unfold parseFloat
  have hdrop : (whole ++ (if point then '.' :: fraction else [])).dropWhile isWhiteSpace =
      whole ++ (if point then '.' :: fraction else []) := by
    rw [hcs]; simp [List.dropWhile, hws]
  simp only [hdrop]
  have hsign : ((whole ++ (if point then '.' :: fraction else [])).head? == some '-') = false := by
    rw [hcs]; simpa using hminus
  have hsign2 : ((whole ++ (if point then '.' :: fraction else [])).head? == some '+') = false := by
    rw [hcs]; simpa using hplus
  have hinf : startsWith (whole ++ (if point then '.' :: fraction else [])) "Infinity".toList
      = false := by
    rw [hcs]
    show (c == 'I' && _) = false
    simp [hI]
  simp only [hsign, hsign2, Bool.or_self, Bool.false_eq_true, if_false, hinf, htw.1, htw.2]
  cases point with
  | false =>
    have hfr := hpoint rfl
    subst hfr
    have hwne : whole ≠ [] := by simpa using hdigit
    simp [hwne, exponentPart]
  | true =>
    simp only [if_true, htf.1, htf.2]
    have hne : ¬ (whole = [] ∧ fraction = []) := by
      rintro ⟨h1, h2⟩
      rcases hdigit with h | h
      · exact h h1
      · exact h h2
    simp only [hne, if_false, exponentPart]
    by_cases hfe : fraction = []
    · subst hfe; simp
    · have hlen : 0 < fraction.length := List.length_pos.mpr hfe
      have hneg : ¬ (0 : Int) ≤ 0 - (fraction.length : Int) := by omega
      simp only [hneg, if_false]
      congr 2
      omega

theorem matchSize_decimal (body : Str) (unit : Option Char) (hbody : body ≠ [])
    (hall : ∀ c ∈ body, isDigitOrDot c = true)
    (hunit : ∀ u, unit = some u → isUnitLetter u = true) :
    matchSize (body ++ unit.toList) = some (body, unit) := by
  have htw := takeWhile_all isDigitOrDot body unit.toList hall (by
    intro c hc
    cases unit with
    | none => simp at hc
    | some u =>
      simp at hc; subst hc
      exact isUnitLetter_not_digitOrDot _ (hunit _ rfl))
  unfold matchSize
  simp only [htw.1, htw.2, hbody, if_false]
  cases unit with
  | none => rfl
  | some u => simp [Option.toList, hunit u rfl]

theorem matchSize_some (s body : Str) (unit : Option Char)
    (h : matchSize s = some (body, unit)) :
    s = body ++ unit.toList ∧ body ≠ [] ∧ (∀ c ∈ body, isDigitOrDot c = true) ∧
      (∀ u, unit = some u → isUnitLetter u = true) := by
  unfold matchSize at h
  have happ := List.takeWhile_append_dropWhile isDigitOrDot s
  by_cases hd : s.takeWhile isDigitOrDot = []
  · simp [hd] at h
  · simp only [hd, if_false] at h
    have hallp : ∀ c ∈ s.takeWhile isDigitOrDot, isDigitOrDot c = true :=
      fun c hc => List.mem_takeWhile_imp hc
    cases hr : s.dropWhile isDigitOrDot with
    | nil =>
      simp only [hr, Option.some.injEq, Prod.mk.injEq] at h
      obtain ⟨h1, h2⟩ := h
      subst h1; subst h2
      refine ⟨?_, hd, hallp, by simp⟩
      rw [hr] at happ; simpa using happ.symm
    | cons u rest =>
      cases rest with
      | nil =>
        simp only [hr] at h
        by_cases hu : isUnitLetter u = true
        · simp only [hu, if_true, Option.some.injEq, Prod.mk.injEq] at h
          obtain ⟨h1, h2⟩ := h
          subst h1; subst h2
          refine ⟨?_, hd, hallp, ?_⟩
          · rw [hr] at happ; simpa using happ.symm
          · intro v hv; simp at hv; subst hv; exact hu
        · simp [hu] at h
      | cons v more => simp [hr] at h

theorem unitMultiplier_lt (unit : Option Char) (hunit : ∀ u, unit = some u → isUnitLetter u = true) :
    unitMultiplier unit < 2 ^ 53 ∧ 0 < unitMultiplier unit := by
  cases unit with
  | none => decide
  | some u =>
    have h := hunit u rfl
    simp only [isUnitLetter, Bool.or_eq_true, beq_iff_eq] at h
    rcases h with ((((h | h) | h) | h) | h) | h <;> subst h <;> decide

theorem parseSizeToNumber_of_match (sizeStr body : Str) (unit : Option Char)
    (h : matchSize sizeStr = some (body, unit))
    (hunit : ∀ u, unit = some u → isUnitLetter u = true) :
    parseSizeToNumber sizeStr = (parseFloat body).scaled unit := by
  have hne : sizeStr ≠ [] := by
    intro hs; subst hs; simp [matchSize] at h
  unfold parseSizeToNumber
  simp only [hne, if_false, h]
  cases unit with
  | none => rfl
  | some u =>
    have hu := hunit u rfl
    simp only [isUnitLetter, Bool.or_eq_true, beq_iff_eq] at hu
    rcases hu with ((((hu | hu) | hu) | hu) | hu) | hu <;> subst hu <;> rfl

/-- C7, the claim as stated fails: `1.005K` is the decimal number `1.005` followed by
`K`, and `1.005 × 1000 = 1005`, but `parseSizeToNumber` returns the double just below,
`1004.9999999999998863…`, which is less than the number it returns for `1005`. -/
theorem parseSizeToNumber_rounding_counterexample :
    isDecimalWithUnit "1.005K".toList = true ∧
    parseSizeToNumber "1.005K".toList ≠ JSNumber.ofRatio false (1005 * 1000) 1000 ∧
    parseSizeToNumber "1.005K".toList = JSNumber.fin false (0x1f67ffffffffff * 2 ^ 1031) ∧
    parseSizeToNumber "1005".toList = JSNumber.fin false (1005 * 2 ^ 1074) ∧
    (parseSizeToNumber "1.005K".toList).lt (parseSizeToNumber "1005".toList) = true := by
  decide

/-- C7, amended: for a string made of a decimal number `n` (digits `whole`, then
optionally a point and digits `fraction`, with at least one digit) and at most one unit
letter, `parseSizeToNumber` returns the double nearest to `n` when there is no suffix,
and otherwise the correctly rounded double product of that double and 1000 (K, k),
1000000 (M, m) or 1000000000 (G, g).  The result is `n` times the factor exactly
whenever `n` is a whole number and the product is below `2 ^ 53`; and
`parseSizeToNumber("1.5M")` is 1500000, `parseSizeToNumber("500")` is 500. -/
theorem parseSizeToNumber_decimal (whole fraction : Str) (point : Bool) (unit : Option Char)
    (hw : ∀ c ∈ whole, isDigit c = true) (hf : ∀ c ∈ fraction, isDigit c = true)
    (hdigit : whole ≠ [] ∨ fraction ≠ []) (hpoint : point = false → fraction = [])
    (hunit : ∀ u, unit = some u → isUnitLetter u = true) :
    parseSizeToNumber (whole ++ (if point then '.' :: fraction else []) ++ unit.toList) =
      (JSNumber.ofRatio false (radixValue 10 (whole ++ fraction))
        (10 ^ fraction.length)).scaled unit ∧
    (fraction = [] → radixValue 10 whole * unitMultiplier unit < 2 ^ 53 →
      parseSizeToNumber (whole ++ (if point then '.' :: fraction else []) ++ unit.toList) =
        JSNumber.ofNat (radixValue 10 whole * unitMultiplier unit)) ∧
    parseSizeToNumber "1.5M".toList = JSNumber.ofNat 1500000 ∧
    parseSizeToNumber "500".toList = JSNumber.ofNat 500 := by
  have hbody : whole ++ (if point then '.' :: fraction else []) ≠ [] := by
    cases point with
    | false =>
      have := hpoint rfl
      subst this
      simpa using hdigit
    | true => simp
  have hall : ∀ c ∈ whole ++ (if point then '.' :: fraction else []), isDigitOrDot c = true := by
    intro c hc
    rcases List.mem_append.mp hc with hc | hc
    · simp [isDigitOrDot, hw c hc]
    · cases point with
      | false => simp at hc
      | true =>
        simp only [if_true, List.mem_cons] at hc
        rcases hc with hc | hc
        · subst hc; decide
        · simp [isDigitOrDot, hf c hc]
  have hmatch := matchSize_decimal _ unit hbody hall hunit
  have hval := parseSizeToNumber_of_match _ _ unit hmatch hunit
  rw [parseFloat_decimal whole fraction point hw hf hdigit hpoint] at hval
  refine ⟨hval, ?_, by decide, by decide⟩
  intro hfr hlt
  subst hfr
  obtain ⟨hm, hmpos⟩ := unitMultiplier_lt unit hunit
  have hwlt : radixValue 10 whole < 2 ^ 53 :=
    lt_of_le_of_lt (Nat.le_mul_of_pos_right _ hmpos) hlt
  rw [hval]
  simp only [List.append_nil, List.length_nil, pow_zero]
  cases unit with
  | none =>
    simp only [unitMultiplier, Option.map_none', Nat.mul_one]
    rfl
  | some u =>
    show (JSNumber.ofNat (radixValue 10 whole)).mul (JSNumber.ofNat (unitMultiplier (some u))) = _
    exact mul_ofNat_exact _ _ hwlt hm hlt

/-- The amended C7 at `2K`: the result is 2000. -/
theorem parseSizeToNumber_decimal_witness :
    parseSizeToNumber ("2".toList ++ (if false then '.' :: [] else []) ++ (some 'K').toList) =
      JSNumber.ofNat (radixValue 10 "2".toList * unitMultiplier (some 'K')) :=
  (parseSizeToNumber_decimal "2".toList [] false (some 'K') (by decide) (by decide)
    (by decide) (by intro _; rfl) (by intro u hu; cases hu; decide)).2.1 rfl (by decide)

/-- C8, the claim as stated fails: `1.2.3` has two points and `.` has no digit, so
neither is a decimal number with at most one suffix, yet `parseSizeToNumber` returns
the double nearest to 1.2 for the first and NaN, which is not a defined number, for the
second. -/
theorem parseSizeToNumber_dots_counterexample :
    isDecimalWithUnit "1.2.3".toList = false ∧
    parseSizeToNumber "1.2.3".toList = JSNumber.ofRatio false 12 10 ∧
    parseSizeToNumber "1.2.3".toList ≠ JSNumber.ofNat 0 ∧
    isDecimalWithUnit ".".toList = false ∧
    parseSizeToNumber ".".toList = JSNumber.nan ∧
    parseSizeToNumber ".".toList ≠ JSNumber.ofNat 0 := by
  decide

/-- C8, amended: for every string that is not a non-empty run of digits and dots
followed by at most one of the letters K, M, G in either case, `parseSizeToNumber`
returns 0; the empty string and `abc` are such strings. -/
theorem parseSizeToNumber_no_match (sizeStr : Str)
    (h : ¬ ∃ body unit, sizeStr = body ++ unit ∧ body ≠ [] ∧
      (∀ c ∈ body, isDigitOrDot c = true) ∧
      (unit = [] ∨ ∃ u, isUnitLetter u = true ∧ unit = [u])) :
    parseSizeToNumber sizeStr = JSNumber.ofNat 0 ∧
    parseSizeToNumber "".toList = JSNumber.ofNat 0 ∧
    parseSizeToNumber "abc".toList = JSNumber.ofNat 0 := by
  refine ⟨?_, by decide, by decide⟩
  unfold parseSizeToNumber
  by_cases hs : sizeStr = []
  · simp [hs]
  · simp only [hs, if_false]
    cases hm : matchSize sizeStr with
    | none => rfl
    | some found =>
      obtain ⟨body, unit⟩ := found
      obtain ⟨h1, h2, h3, h4⟩ := matchSize_some sizeStr body unit hm
      exfalso
      apply h
      refine ⟨body, unit.toList, h1, h2, h3, ?_⟩
      cases unit with
      | none => exact Or.inl rfl
      | some u => exact Or.inr ⟨u, h4 u rfl, rfl⟩

/-- The amended C8 at `12 MB`, which has a space and two letters after the digits. -/
theorem parseSizeToNumber_no_match_witness :
    parseSizeToNumber "12 MB".toList = JSNumber.ofNat 0 :=
  (parseSizeToNumber_no_match "12 MB".toList (by
    rintro ⟨body, unit, hs, hne, hall, hunit⟩
    have hlen : body.length + unit.length = 5 := by
      have := congrArg List.length hs
      simpa using this.symm
    have hunitlen : unit.length ≤ 1 := by
      rcases hunit with hu | ⟨u, _, hu⟩ <;> simp [hu]
    have hbig : 3 ≤ body.length := by omega
    have htake : body.take 3 = "12 ".toList := by
      have := congrArg (List.take 3) hs
      rw [List.take_append_of_le_length hbig] at this
      rw [← this]; rfl
    have hmem : ' ' ∈ body := by
      have : ' ' ∈ body.take 3 := by rw [htake]; decide
      exact List.mem_of_mem_take this
    have := hall ' ' hmem
    revert this
    decide)).1

/-! ## Dates -/

theorem DaysInYear_pos (y : Int) : DaysInYear y = 365 ∨ DaysInYear y = 366 := by
  unfold DaysInYear
  split_ifs <;> simp

theorem DayFromYear_succ (y : Int) : DayFromYear (y + 1) = DayFromYear y + DaysInYear y := by
  unfold DayFromYear DaysInYear
  split_ifs <;> omega

theorem DayFromYear_lt_of_lt (y z : Int) (h : y < z) : DayFromYear y < DayFromYear z := by
  unfold DayFromYear
  omega

theorem yearScan_eq (day y : Int) (hlo : DayFromYear y ≤ day) (hhi : day < DayFromYear (y + 1))
    (fuel : Nat) (start : Int) (hstart : y ≤ start) (hfuel : start - y ≤ fuel) :
    yearScan day fuel start = y := by
  induction fuel generalizing start with
  | zero =>
    simp only [yearScan]
    omega
  | succ fuel ih =>
    simp only [yearScan]
    by_cases hle : DayFromYear start ≤ day
    · rw [if_pos hle]
      by_contra hne
      have hlt : y + 1 ≤ start := by omega
      rcases eq_or_lt_of_le hlt with heq | hlt'
      · rw [← heq] at hle; omega
      · have := DayFromYear_lt_of_lt _ _ hlt'
        omega
    · rw [if_neg hle]
      have hne : start ≠ y := by
        intro heq; rw [heq] at hle; exact hle hlo
      apply ih
      · omega
      · omega

theorem YearFromTime_eq (t y : Int) (hlo : DayFromYear y ≤ Day t)
    (hhi : Day t < DayFromYear (y + 1)) : YearFromTime t = y := by
  unfold YearFromTime
  apply yearScan_eq _ _ hlo hhi
  · unfold DayFromYear at hlo
    omega
  · unfold DayFromYear at hhi
    omega

theorem leapDay_cases (y : Int) :
    (leapDay y = 0 ∧ DaysInYear y = 365) ∨ (leapDay y = 1 ∧ DaysInYear y = 366) := by
  unfold leapDay
  rcases DaysInYear_pos y with h | h <;> simp [h]

theorem Day_MakeDate (day : Int) : Day (MakeDate day 0) = day ∧ TimeWithinDay (MakeDate day 0) = 0 := by
  unfold Day TimeWithinDay MakeDate msPerDay
  constructor <;> omega

theorem monthStart_values (leap : Int) :
    monthStart leap 0 = 0 ∧ monthStart leap 1 = 31 ∧ monthStart leap 2 = 59 + leap ∧
    monthStart leap 3 = 90 + leap ∧ monthStart leap 4 = 120 + leap ∧
    monthStart leap 5 = 151 + leap ∧ monthStart leap 6 = 181 + leap ∧
    monthStart leap 7 = 212 + leap ∧ monthStart leap 8 = 243 + leap ∧
    monthStart leap 9 = 273 + leap ∧ monthStart leap 10 = 304 + leap ∧
    monthStart leap 11 = 334 + leap :=
  ⟨rfl, rfl, rfl, rfl, rfl, rfl, rfl, rfl, rfl, rfl, rfl, rfl⟩

theorem daysInMonth_values (y : Int) :
    daysInMonth y (0 + 1) = 31 ∧ daysInMonth y (1 + 1) = 28 + leapDay y ∧
    daysInMonth y (2 + 1) = 31 ∧ daysInMonth y (3 + 1) = 30 ∧ daysInMonth y (4 + 1) = 31 ∧
    daysInMonth y (5 + 1) = 30 ∧ daysInMonth y (6 + 1) = 31 ∧ daysInMonth y (7 + 1) = 31 ∧
    daysInMonth y (8 + 1) = 30 ∧ daysInMonth y (9 + 1) = 31 ∧ daysInMonth y (10 + 1) = 30 ∧
    daysInMonth y (11 + 1) = 31 :=
  ⟨rfl, rfl, rfl, rfl, rfl, rfl, rfl, rfl, rfl, rfl, rfl, rfl⟩

theorem month_bounds (y m d : Int) (hm1 : 1 ≤ m) (hm12 : m ≤ 12) (hd1 : 1 ≤ d)
    (hd : d ≤ daysInMonth y m) :
    0 ≤ monthStart (leapDay y) (m - 1) + d - 1 ∧
    monthStart (leapDay y) (m - 1) + d - 1 < 365 + leapDay y ∧
    monthOfDay (leapDay y) (monthStart (leapDay y) (m - 1) + d - 1) = m - 1 := by
  have hl : leapDay y = 0 ∨ leapDay y = 1 := by
    rcases leapDay_cases y with ⟨h, _⟩ | ⟨h, _⟩ <;> simp [h]
  have hmm : m = m - 1 + 1 := by omega
  rw [hmm] at hd
  obtain ⟨s0, s1, s2, s3, s4, s5, s6, s7, s8, s9, s10, s11⟩ := monthStart_values (leapDay y)
  obtain ⟨n0, n1, n2, n3, n4, n5, n6, n7, n8, n9, n10, n11⟩ := daysInMonth_values y
  have hcases : m - 1 = 0 ∨ m - 1 = 1 ∨ m - 1 = 2 ∨ m - 1 = 3 ∨ m - 1 = 4 ∨ m - 1 = 5 ∨
      m - 1 = 6 ∨ m - 1 = 7 ∨ m - 1 = 8 ∨ m - 1 = 9 ∨ m - 1 = 10 ∨ m - 1 = 11 := by omega
  rcases hcases with h | h | h | h | h | h | h | h | h | h | h | h
  all_goals
    rw [h] at hd ⊢
    simp only [s0, s1, s2, s3, s4, s5, s6, s7, s8, s9, s10, s11,
      n0, n1, n2, n3, n4, n5, n6, n7, n8, n9, n10, n11] at hd ⊢
    clear s0 s1 s2 s3 s4 s5 s6 s7 s8 s9 s10 s11 n0 n1 n2 n3 n4 n5 n6 n7 n8 n9 n10 n11
    refine ⟨by omega, by omega, ?_⟩
    unfold monthOfDay
    repeat (first | rw [if_pos (by omega)] | rw [if_neg (by omega)])

/-- The calendar fields of the local time built from a valid day, month and year are
that day, month and year. -/
theorem date_fields (y m d : Int) (hm1 : 1 ≤ m) (hm12 : m ≤ 12) (hd1 : 1 ≤ d)
    (hd : d ≤ daysInMonth y m) :
    YearFromTime (MakeDate (MakeDay y (m - 1) d) 0) = y ∧
    MonthFromTime (MakeDate (MakeDay y (m - 1) d) 0) = m - 1 ∧
    DateFromTime (MakeDate (MakeDay y (m - 1) d) 0) = d ∧
    TimeWithinDay (MakeDate (MakeDay y (m - 1) d) 0) = 0 := by
  have hdiv : (m - 1) / 12 = 0 := by omega
  have hmod : (m - 1) % 12 = m - 1 := by omega
  have hday : MakeDay y (m - 1) d = DayFromYear y + monthStart (leapDay y) (m - 1) + d - 1 := by
    simp only [MakeDay, hdiv, hmod, add_zero]
  obtain ⟨hD, hT⟩ := Day_MakeDate (MakeDay y (m - 1) d)
  have hsucc := DayFromYear_succ y
  have hleap : (leapDay y = 0 ∨ leapDay y = 1) ∧ DaysInYear y = 365 + leapDay y := by
    rcases leapDay_cases y with ⟨hl, hy⟩ | ⟨hl, hy⟩ <;> simp [hl, hy]
  obtain ⟨hb0, hb1, hb2⟩ := month_bounds y m d hm1 hm12 hd1 hd
  have hyear : YearFromTime (MakeDate (MakeDay y (m - 1) d) 0) = y := by
    apply YearFromTime_eq
    · rw [hD, hday]; omega
    · rw [hD, hday, hsucc, hleap.2]; omega
  have hwithin : DayWithinYear (MakeDate (MakeDay y (m - 1) d) 0) =
      monthStart (leapDay y) (m - 1) + d - 1 := by
    unfold DayWithinYear
    rw [hyear, hD, hday]
    omega
  have hmonth : MonthFromTime (MakeDate (MakeDay y (m - 1) d) 0) = m - 1 := by
    unfold MonthFromTime
    rw [hwithin, hyear, hb2]
  refine ⟨hyear, hmonth, ?_, hT⟩
  unfold DateFromTime
  rw [hwithin, hyear, hmonth]
  omega

theorem split_no_sep (sep : Char) (s : Str) (h : sep ∉ s) : split sep s = [s] := by
  induction s with
  | nil => rfl
  | cons c cs ih =>
    have hc : c ≠ sep := fun hc => h (hc ▸ List.mem_cons_self _ _)
    have hcs : sep ∉ cs := fun hm => h (List.mem_cons_of_mem _ hm)
    simp [split, hc, ih hcs]

theorem split_append_sep (sep : Char) (s rest : Str) (h : sep ∉ s) :
    split sep (s ++ sep :: rest) = s :: split sep rest := by
  induction s with
  | nil => simp [split]
  | cons c cs ih =>
    have hc : c ≠ sep := fun hc => h (hc ▸ List.mem_cons_self _ _)
    have hcs : sep ∉ cs := fun hm => h (List.mem_cons_of_mem _ hm)
    simp [split, hc, ih hcs]

theorem digits_no_slash (s : Str) (h : ∀ c ∈ s, isDigit c = true) : '/' ∉ s := by
  intro hm
  have := (isDigit_facts _ (h _ hm)).2.2.2.2.2.1
  exact this rfl

theorem matchDMY_of_parts (day month year : Str)
    (hd : ∀ c ∈ day, isDigit c = true) (hdl : day.length = 1 ∨ day.length = 2)
    (hm : ∀ c ∈ month, isDigit c = true) (hml : month.length = 1 ∨ month.length = 2)
    (hy : ∀ c ∈ year, isDigit c = true) (hyl : year.length = 4) :
    matchDMY (day ++ '/' :: (month ++ '/' :: year)) = some (day, month, year) := by
  unfold matchDMY
  rw [split_append_sep _ _ _ (digits_no_slash day hd),
    split_append_sep _ _ _ (digits_no_slash month hm), split_no_sep _ _ (digits_no_slash year hy)]
  have h1 : day.all isDigit = true := List.all_eq_true.mpr hd
  have h2 : month.all isDigit = true := List.all_eq_true.mpr hm
  have h3 : year.all isDigit = true := List.all_eq_true.mpr hy
  simp [h1, h2, h3, hdl, hml, hyl]

theorem radixDigit_ten (c : Char) (h : isDigit c = true) :
    radixDigit 10 c = some (c.toNat - 48) ∧ c.toNat - 48 < 10 := by
  have hlt : c.toNat - 48 < 10 := by
    simp only [isDigit, Bool.and_eq_true, decide_eq_true_eq] at h
    omega
  simp [radixDigit, h, Option.filter, hlt]

theorem radixValue_lt (s : Str) (h : ∀ c ∈ s, isDigit c = true) :
    radixValue 10 s < 10 ^ s.length := by
  induction s using List.reverseRecOn with
  | nil => simp [radixValue]
  | append_singleton p c ih =>
    have hp := ih (fun x hx => h x (List.mem_append_left _ hx))
    have hc := radixDigit_ten c (h c (by simp))
    have hstep : radixValue 10 (p ++ [c]) = 10 * radixValue 10 p + (c.toNat - 48) := by
      simp [radixValue, List.foldl_append, hc.1]
    rw [hstep, List.length_append, List.length_singleton, Nat.pow_succ]
    have := hc.2
    omega

theorem startsWith_hex_digits (s : Str) (h : ∀ c ∈ s, isDigit c = true) :
    startsWith s "0x".toList = false ∧ startsWith s "0X".toList = false := by
  match s, h with
  | [], _ => exact ⟨rfl, rfl⟩
  | [_], _ => simp [startsWith]
  | a :: b :: rest, h =>
    have hb := isDigit_facts b (h b (by simp))
    have hx : b ≠ 'x' := by
      intro hc; subst hc
      have := h 'x' (by simp)
      revert this; decide
    have hX : b ≠ 'X' := by
      intro hc; subst hc
      have := h 'X' (by simp)
      revert this; decide
    simp [startsWith, hx, hX]

/-- `parseInt` on a non-empty run of decimal digits is the number they write. -/
theorem parseInt_digits (s : Str) (hne : s ≠ []) (h : ∀ c ∈ s, isDigit c = true) :
    parseInt s = JSNumber.ofNat (radixValue 10 s) := by
  obtain ⟨c, cs, hcs⟩ := List.exists_cons_of_ne_nil hne
  have hc := isDigit_facts c (h c (by rw [hcs]; simp))
  have hdrop : s.dropWhile isWhiteSpace = s := by
    rw [hcs]; simp [List.dropWhile, hc.1]
  have hminus : (s.head? == some '-') = false := by
    rw [hcs]; simpa using hc.2.1
  have hplus : (s.head? == some '+') = false := by
    rw [hcs]; simpa using hc.2.2.1
  obtain ⟨hx, hX⟩ := startsWith_hex_digits s h
  have htake := (takeWhile_all (fun c => (radixDigit 10 c).isSome) s []
    (fun c hc => by simp [(radixDigit_ten c (h c hc)).1]) (by simp)).1
  simp only [List.append_nil] at htake
  unfold parseInt
  simp only [hdrop, hminus, hplus, hx, hX, Bool.or_self, Bool.false_eq_true, if_false, htake, hne]
  rfl

theorem toInteger_ofNat (n : Nat) (hn : n < 2 ^ 53) :
    (JSNumber.ofNat n).toInteger = some (n : Int) := by
  rw [ofNat_exact n hn]
  simp [JSNumber.toInteger, signedUnits, Nat.mul_div_cancel _ (Nat.pow_pos (by norm_num : 0 < 2))]

theorem sub_one_ofNat (n : Nat) (h1 : 1 ≤ n) (hn : n < 2 ^ 53) :
    (JSNumber.ofNat n).sub (JSNumber.ofNat 1) = JSNumber.ofNat (n - 1) := by
  rw [ofNat_exact n hn, ofNat_exact 1 (by norm_num), ofNat_exact (n - 1) (by omega)]
  obtain ⟨k, rfl⟩ : ∃ k, n = k + 1 := ⟨n - 1, by omega⟩
  simp only [JSNumber.sub, signedUnits, Bool.false_eq_true, if_false, Nat.add_sub_cancel]
  have hd : ((((k + 1) * 2 ^ 1074 : Nat) : Int) - ((1 * 2 ^ 1074 : Nat) : Int)) =
      ((k * 2 ^ 1074 : Nat) : Int) := by
    push_cast; ring
  rw [hd]
  by_cases hk : k = 0
  · subst hk; simp
  · have hpos : 0 < k * 2 ^ 1074 := Nat.mul_pos (Nat.pos_of_ne_zero hk) (Nat.pow_pos (by norm_num))
    have hne : ((k * 2 ^ 1074 : Nat) : Int) ≠ 0 := by exact_mod_cast (Nat.ne_of_gt hpos)
    have hnn : ¬ (((k * 2 ^ 1074 : Nat) : Int) < 0) := by
      have : (0 : Int) ≤ ((k * 2 ^ 1074 : Nat) : Int) := Int.ofNat_nonneg _
      omega
    simp only [hne, if_false, hnn, decide_False, Int.natAbs_ofNat]
    exact ofRatio_exact false k (2 ^ 1074) (Nat.pow_pos (by norm_num)) (by omega)

theorem parseDateToSortable_of_dmy (host : Host) (day month year : Str)
    (hd : ∀ c ∈ day, isDigit c = true) (hdl : day.length = 1 ∨ day.length = 2)
    (hm : ∀ c ∈ month, isDigit c = true) (hml : month.length = 1 ∨ month.length = 2)
    (hy : ∀ c ∈ year, isDigit c = true) (hyl : year.length = 4)
    (hm1 : 1 ≤ radixValue 10 month) :
    parseDateToSortable host (day ++ '/' :: (month ++ '/' :: year)) =
      JSDate.ofLocal (MakeDate (MakeDay
        (if (radixValue 10 year : Int) ≤ 99 then 1900 + (radixValue 10 year : Int)
         else (radixValue 10 year : Int))
        ((radixValue 10 month : Int) - 1) (radixValue 10 day : Int)) 0) := by
  have hdne : day ≠ [] := by
    intro h; subst h; simp at hdl
  have hmne : month ≠ [] := by
    intro h; subst h; simp at hml
  have hyne : year ≠ [] := by
    intro h; subst h; simp at hyl
  have hdv : radixValue 10 day < 2 ^ 53 := by
    have := radixValue_lt day hd
    have h100 : 10 ^ day.length ≤ 100 := by rcases hdl with h | h <;> simp [h]
    have : (100 : Nat) < 2 ^ 53 := by norm_num
    omega
  have hmv : radixValue 10 month < 2 ^ 53 := by
    have := radixValue_lt month hm
    have h100 : 10 ^ month.length ≤ 100 := by rcases hml with h | h <;> simp [h]
    have : (100 : Nat) < 2 ^ 53 := by norm_num
    omega
  have hyv : radixValue 10 year < 2 ^ 53 := by
    have := radixValue_lt year hy
    rw [hyl] at this
    have : (10 ^ 4 : Nat) < 2 ^ 53 := by norm_num
    omega
  have hne : day ++ '/' :: (month ++ '/' :: year) ≠ [] := by
    cases day with
    | nil => exact absurd rfl hdne
    | cons c cs => simp
  unfold parseDateToSortable
  simp only [hne, if_false, matchDMY_of_parts day month year hd hdl hm hml hy hyl]
  rw [parseInt_digits year hyne hy, parseInt_digits month hmne hm, parseInt_digits day hdne hd,
    sub_one_ofNat _ hm1 hmv]
  unfold newDate
  rw [toInteger_ofNat _ hyv, toInteger_ofNat _ (by omega), toInteger_ofNat _ hdv]
  have hcast : ((radixValue 10 month - 1 : Nat) : Int) = (radixValue 10 month : Int) - 1 := by
    omega
  have hnn : (0 : Int) ≤ (radixValue 10 year : Int) := Int.ofNat_nonneg _
  simp only [hcast, hnn, true_and]

/-- C5, the claim as stated fails: `01/02/0050` has the form d/m/yyyy and names
1 February of the year 50, but `new Date(50, 1, 1)` reads a year from 0 to 99 as 1900
plus that year, so `parseDateToSortable` returns 1 February 1950. -/
theorem parseDateToSortable_short_year_counterexample :
    matchDMY "01/02/0050".toList = some ("01".toList, "02".toList, "0050".toList) ∧
    radixValue 10 "0050".toList = 50 ∧
    (1 : Int) ≤ daysInMonth 50 2 ∧
    parseDateToSortable asciiHost "01/02/0050".toList =
      JSDate.ofLocal (MakeDate (MakeDay 1950 1 1) 0) ∧
    YearFromTime (MakeDate (MakeDay 1950 1 1) 0) = 1950 ∧
    MonthFromTime (MakeDate (MakeDay 1950 1 1) 0) = 1 ∧
    DateFromTime (MakeDate (MakeDay 1950 1 1) 0) = 1 := by
  decide

/-- C5, amended: for a string of the form d/m/yyyy (day and month of one or two
digits, year of four) that names a valid calendar date of a year from 0100 on,
`parseDateToSortable` returns the local midnight whose calendar fields are that year,
month `m` (the second number, counted from 0 by `MonthFromTime`) and day `d` (the
first number); `parseDateToSortable("01/02/2020")` is 1 February 2020 and not
2 January 2020. -/
theorem parseDateToSortable_dmy (host : Host) (day month year : Str)
    (hd : ∀ c ∈ day, isDigit c = true) (hdl : day.length = 1 ∨ day.length = 2)
    (hm : ∀ c ∈ month, isDigit c = true) (hml : month.length = 1 ∨ month.length = 2)
    (hy : ∀ c ∈ year, isDigit c = true) (hyl : year.length = 4)
    (hyear : 100 ≤ radixValue 10 year)
    (hm1 : 1 ≤ radixValue 10 month) (hm12 : radixValue 10 month ≤ 12)
    (hd1 : 1 ≤ radixValue 10 day)
    (hdmax : (radixValue 10 day : Int) ≤ daysInMonth (radixValue 10 year) (radixValue 10 month)) :
    (∃ t, parseDateToSortable host (day ++ '/' :: (month ++ '/' :: year)) = JSDate.ofLocal t ∧
      YearFromTime t = radixValue 10 year ∧
      MonthFromTime t = (radixValue 10 month : Int) - 1 ∧
      DateFromTime t = radixValue 10 day ∧
      TimeWithinDay t = 0) ∧
    parseDateToSortable host "01/02/2020".toList =
      JSDate.ofLocal (MakeDate (MakeDay 2020 1 1) 0) ∧
    MakeDate (MakeDay 2020 1 1) 0 ≠ MakeDate (MakeDay 2020 0 2) 0 := by
  refine ⟨?_, ?_, by decide⟩
  · refine ⟨_, parseDateToSortable_of_dmy host day month year hd hdl hm hml hy hyl hm1, ?_⟩
    have hnot : ¬ ((radixValue 10 year : Int) ≤ 99) := by omega
    simp only [hnot, if_false]
    exact date_fields _ _ _ (by omega) (by omega) (by omega) hdmax
  · have := parseDateToSortable_of_dmy host "01".toList "02".toList "2020".toList
      (by decide) (by decide) (by decide) (by decide) (by decide) (by decide) (by decide)
    simpa using this

/-- The amended C5 at `29/2/2024`, a leap day. -/
theorem parseDateToSortable_dmy_witness :
    ∃ t, parseDateToSortable asciiHost ("29".toList ++ '/' :: ("2".toList ++ '/' :: "2024".toList)) =
        JSDate.ofLocal t ∧
      YearFromTime t = radixValue 10 "2024".toList ∧
      MonthFromTime t = (radixValue 10 "2".toList : Int) - 1 ∧
      DateFromTime t = radixValue 10 "29".toList ∧
      TimeWithinDay t = 0 :=
  (parseDateToSortable_dmy asciiHost "29".toList "2".toList "2024".toList (by decide) (by decide)
    (by decide) (by decide) (by decide) (by decide) (by decide) (by decide) (by decide)
    (by decide) (by decide)).1

/-- C6: for a non-empty string that matches neither pattern and that the host's date
parse cannot read, `parseDateToSortable` returns what `new Date(dateStr)` returns, an
invalid date whose time value is NaN.  It is not the epoch date returned for the empty
string, whose time value is 0: the `catch` that would return the epoch is never
entered, since `new Date` does not throw. -/
theorem parseDateToSortable_unparseable (host : Host) (dateStr : Str)
    (hne : dateStr ≠ []) (hdmy : matchDMY dateStr = none)
    (hmy : matchMonthYear dateStr = none) (hparse : host.parseDate dateStr = none) :
    parseDateToSortable host dateStr = JSDate.invalid ∧
    (parseDateToSortable host dateStr).timeValue host = JSNumber.nan ∧
    parseDateToSortable host [] = JSDate.ofTimeValue 0 ∧
    (parseDateToSortable host []).timeValue host = JSNumber.ofInt 0 ∧
    JSNumber.nan ≠ JSNumber.ofInt 0 := by
  have h1 : parseDateToSortable host dateStr = JSDate.invalid := by
    unfold parseDateToSortable
    simp only [hne, if_false, hdmy, hmy, newDateOfString, hparse]
  refine ⟨h1, ?_, rfl, rfl, by decide⟩
  rw [h1]
  rfl

/-- C6 at the string `not a date`, on a host that cannot parse it. -/
theorem parseDateToSortable_unparseable_witness :
    parseDateToSortable asciiHost "not a date".toList = JSDate.invalid ∧
    (parseDateToSortable asciiHost "not a date".toList).timeValue asciiHost = JSNumber.nan ∧
    parseDateToSortable asciiHost [] = JSDate.ofTimeValue 0 ∧
    (parseDateToSortable asciiHost []).timeValue asciiHost = JSNumber.ofInt 0 ∧
    JSNumber.nan ≠ JSNumber.ofInt 0 :=
  parseDateToSortable_unparseable asciiHost "not a date".toList (by decide) (by decide)
    (by decide) rfl

/-! ## The sort -/

theorem map_eq_of_injOn {α β : Type} (f : α → β) (l₁ l₂ : List α)
    (hinj : ∀ a ∈ l₁, ∀ b ∈ l₂, f a = f b → a = b) (h : l₁.map f = l₂.map f) : l₁ = l₂ := by
  induction l₁ generalizing l₂ with
  | nil =>
    cases l₂ with
    | nil => rfl
    | cons b bs => simp at h
  | cons a as ih =>
    cases l₂ with
    | nil => simp at h
    | cons b bs =>
      simp only [List.map_cons, List.cons.injEq] at h
      have hab := hinj a (List.mem_cons_self _ _) b (List.mem_cons_self _ _) h.1
      rw [hab, ih bs (fun x hx y hy => hinj x (List.mem_cons_of_mem _ hx) y
        (List.mem_cons_of_mem _ hy)) h.2]

/-- Sorting by a key into a linear order: descending after ascending reverses, when
the keys are pairwise distinct. -/
theorem insertionSort_desc_reverse {α K : Type} [LinearOrder K] (key : α → K)
    (up down : α → α → Prop) [DecidableRel up] [DecidableRel down] (l : List α)
    (hup : ∀ a ∈ l, ∀ b ∈ l, up a b ↔ key a ≤ key b)
    (hdown : ∀ a ∈ l, ∀ b ∈ l, down a b ↔ key b ≤ key a)
    (hnodup : (l.map key).Nodup) :
    (l.insertionSort up).insertionSort down = (l.insertionSort up).reverse := by
  have hperm : (l.insertionSort up).Perm l := List.perm_insertionSort up l
  have hmem : ∀ a, a ∈ l.insertionSort up → a ∈ l := fun a ha => hperm.subset ha
  have hkeysUp : (l.insertionSort up).map key = (l.map key).insertionSort (· ≤ ·) :=
    List.map_insertionSort up (· ≤ ·) key l hup
  have hsortedUp : ((l.insertionSort up).map key).Sorted (· ≤ ·) := by
    rw [hkeysUp]; exact List.sorted_insertionSort (· ≤ ·) _
  have hkeysDown : ((l.insertionSort up).insertionSort down).map key =
      ((l.insertionSort up).map key).insertionSort (· ≥ ·) :=
    List.map_insertionSort down (· ≥ ·) key _
      (fun a ha b hb => hdown a (hmem a ha) b (hmem b hb))
  have hrev : ((l.insertionSort up).map key).reverse.Sorted (· ≥ ·) := by
    rw [List.Sorted, List.pairwise_reverse]
    exact hsortedUp
  have hkeys : ((l.insertionSort up).insertionSort down).map key =
      ((l.insertionSort up).reverse).map key := by
    rw [hkeysDown, List.map_reverse]
    apply List.eq_of_perm_of_sorted (r := (· ≥ ·))
    · exact (List.perm_insertionSort _ _).trans (List.reverse_perm _).symm
    · exact List.sorted_insertionSort _ _
    · exact hrev
  have hinj : ∀ a ∈ l, ∀ b ∈ l, key a = key b → a = b :=
    fun a ha b hb => List.inj_on_of_nodup_map hnodup ha hb
  apply map_eq_of_injOn key _ _ _ hkeys
  intro a ha b hb
  exact hinj a (hmem a ((List.perm_insertionSort down _).subset ha)) b
    (hmem b (List.mem_reverse.mp hb))

theorem codeUnitsLt_iff_lex (a b : List Nat) :
    codeUnitsLt a b = true ↔ List.Lex (· < ·) a b := by
  induction a generalizing b with
  | nil =>
    cases b with
    | nil => simp [codeUnitsLt, List.Lex.not_nil_right]
    | cons y ys => simp [codeUnitsLt, List.Lex.nil]
  | cons x xs ih =>
    cases b with
    | nil => simp [codeUnitsLt, List.Lex.not_nil_right]
    | cons y ys =>
      simp only [codeUnitsLt, Bool.or_eq_true, decide_eq_true_eq, Bool.and_eq_true, beq_iff_eq]
      constructor
      · rintro (h | ⟨h, hrest⟩)
        · exact List.Lex.rel h
        · subst h; exact List.Lex.cons ((ih ys).mp hrest)
      · intro h
        cases h with
        | cons h => exact Or.inr ⟨rfl, (ih ys).mpr h⟩
        | rel h => exact Or.inl h

theorem codeUnitsLt_iff_lt (a b : List Nat) : codeUnitsLt a b = true ↔ a < b :=
  codeUnitsLt_iff_lex a b

theorem numLt_iff_rank (x y : JSNumber) (hx : x ≠ JSNumber.nan) (hy : y ≠ JSNumber.nan) :
    x.lt y = true ↔ numRank x < numRank y := by
  cases x with
  | nan => exact absurd rfl hx
  | fin n a =>
    cases y with
    | nan => exact absurd rfl hy
    | fin m b => simp [JSNumber.lt, numRank, Prod.Lex.lt_iff]
    | inf m => cases m <;> simp [JSNumber.lt, numRank, Prod.Lex.lt_iff]
  | inf n =>
    cases y with
    | nan => exact absurd rfl hy
    | fin m b => cases n <;> simp [JSNumber.lt, numRank, Prod.Lex.lt_iff]
    | inf m => cases n <;> cases m <;> simp [JSNumber.lt, numRank, Prod.Lex.lt_iff]

theorem numLt_nan (x : JSNumber) :
    JSNumber.nan.lt x = false ∧ x.lt JSNumber.nan = false := by
  cases x with
  | nan => exact ⟨rfl, rfl⟩
  | fin n a => exact ⟨rfl, rfl⟩
  | inf n => cases n <;> exact ⟨rfl, rfl⟩

theorem compareKeys_le_asc (x y : Key) :
    compareKeys Direction.asc x y ≤ 0 ↔ (x.lt y = true ∨ y.lt x = false) := by
  unfold compareKeys
  cases hxy : x.lt y <;> cases hyx : y.lt x <;> simp

theorem compareKeys_le_desc (x y : Key) :
    compareKeys Direction.desc x y ≤ 0 ↔ x.lt y = false := by
  unfold compareKeys
  cases hxy : x.lt y <;> cases hyx : y.lt x <;> simp

theorem compareKeys_desc_neg (x y : Key) :
    compareKeys Direction.desc x y = - compareKeys Direction.asc x y := by
  unfold compareKeys
  cases hxy : x.lt y <;> cases hyx : y.lt x <;> simp

theorem sortKey_kind (host : Host) (column : Str) :
    (∃ f : Record → JSNumber, ∀ a, sortKey host column a = Key.number (f a)) ∨
    (∃ g : Record → List Nat, ∀ a, sortKey host column a = Key.text (g a)) := by
  by_cases h1 : column = "date_breach".toList ∨ column = "date_upload_arcade".toList
  · exact Or.inl ⟨fun a => (parseDateToSortable host ((a.get column).getD [])).timeValue host,
      fun a => by unfold sortKey; rw [if_pos h1]⟩
  · by_cases h2 : column = "clean".toList
    · exact Or.inl ⟨fun a => parseInt ((a.get column).getD []),
        fun a => by unfold sortKey; rw [if_neg h1, if_pos h2]⟩
    · by_cases h3 : column = "affected_accounts".toList
      · exact Or.inl ⟨fun a => parseSizeToNumber ((a.get column).getD []),
          fun a => by unfold sortKey; rw [if_neg h1, if_neg h2, if_pos h3]⟩
      · exact Or.inr ⟨fun a => codeUnits (host.toLowerCase ((a.get column).getD [])),
          fun a => by unfold sortKey; rw [if_neg h1, if_neg h2, if_neg h3]⟩

/-- Sorting records by a key the comparator orders like a linear order: descending
after ascending reverses. -/
theorem sortBy_desc_reverse {K : Type} [LinearOrder K] (keyOf : Record → Key) (rank : Key → K)
    (data : List Record)
    (hrank : ∀ a ∈ data, ∀ b ∈ data,
      ((keyOf a).lt (keyOf b) = true ↔ rank (keyOf a) < rank (keyOf b)))
    (hordered : data.Pairwise (fun a b =>
      (keyOf a).lt (keyOf b) = true ∨ (keyOf b).lt (keyOf a) = true)) :
    sortBy (fun a b => compareKeys Direction.desc (keyOf a) (keyOf b))
        (sortBy (fun a b => compareKeys Direction.asc (keyOf a) (keyOf b)) data) =
      (sortBy (fun a b => compareKeys Direction.asc (keyOf a) (keyOf b)) data).reverse := by
  unfold sortBy
  apply insertionSort_desc_reverse (fun a => rank (keyOf a))
  · intro a ha b hb
    rw [compareKeys_le_asc, hrank a ha b hb]
    have hba := hrank b hb a ha
    constructor
    · rintro (h | h)
      · exact le_of_lt h
      · rw [← Bool.not_eq_true, hba] at h
        exact not_lt.mp h
    · intro h
      right
      rw [← Bool.not_eq_true, hba]
      exact not_lt.mpr h
  · intro a ha b hb
    rw [compareKeys_le_desc, ← Bool.not_eq_true, hrank a ha b hb]
    exact not_lt
  · rw [List.Nodup, List.pairwise_map]
    refine List.Pairwise.imp_of_mem ?_ hordered
    intro a b ha hb hab
    rcases hab with h | h
    · exact ne_of_lt ((hrank a ha b hb).mp h)
    · exact ne_of_gt ((hrank b hb a ha).mp h)

theorem pairwise_ordered_or_eq (keyOf : Record → Key) (data : List Record)
    (hordered : data.Pairwise (fun a b =>
      (keyOf a).lt (keyOf b) = true ∨ (keyOf b).lt (keyOf a) = true)) :
    ∀ a ∈ data, ∀ b ∈ data,
      a = b ∨ (keyOf a).lt (keyOf b) = true ∨ (keyOf b).lt (keyOf a) = true := by
  intro a ha b hb
  by_cases hab : a = b
  · exact Or.inl hab
  · right
    exact List.Pairwise.forall (fun x y h => h.symm) hordered ha hb hab

/-- C9, the claim as stated fails: the records with `clean` equal to `x` and to `1`
have the distinct comparison keys NaN and 1, but the comparator returns 0 for them in
both directions, so the stable sort leaves them in place, ascending and descending
alike, and the descending result is not the reverse of the ascending one. -/
theorem applySorting_nan_counterexample :
    sortKey asciiHost "clean".toList [("clean".toList, "x".toList)] = Key.number JSNumber.nan ∧
    sortKey asciiHost "clean".toList [("clean".toList, "1".toList)] =
      Key.number (JSNumber.ofNat 1) ∧
    Key.number JSNumber.nan ≠ Key.number (JSNumber.ofNat 1) ∧
    applySorting asciiHost "clean".toList Direction.asc
        [[("clean".toList, "x".toList)], [("clean".toList, "1".toList)]] =
      [[("clean".toList, "x".toList)], [("clean".toList, "1".toList)]] ∧
    applySorting asciiHost "clean".toList Direction.desc
        (applySorting asciiHost "clean".toList Direction.asc
          [[("clean".toList, "x".toList)], [("clean".toList, "1".toList)]]) ≠
      (applySorting asciiHost "clean".toList Direction.asc
        [[("clean".toList, "x".toList)], [("clean".toList, "1".toList)]]).reverse := by
  decide

/-- C9, amended: for every record sequence and every column on which, of any two
records, one has a comparison key strictly below the other's (the keys are distinct
and none is NaN), sorting with `applySorting` ascending and then descending on that
column gives exactly the reverse of the ascending result; and for every pair of
records the descending comparator returns the negation of the ascending one. -/
theorem applySorting_desc_reverses_asc (host : Host) (column : Str) (data : List Record)
    (hordered : data.Pairwise (fun a b =>
      (sortKey host column a).lt (sortKey host column b) = true ∨
      (sortKey host column b).lt (sortKey host column a) = true)) :
    applySorting host column Direction.desc (applySorting host column Direction.asc data) =
      (applySorting host column Direction.asc data).reverse ∧
    ∀ a b, compareRecords host column Direction.desc a b =
      - compareRecords host column Direction.asc a b := by
  refine ⟨?_, fun a b => compareKeys_desc_neg _ _⟩
  have hcases := pairwise_ordered_or_eq (sortKey host column) data hordered
  rcases sortKey_kind host column with ⟨f, hf⟩ | ⟨g, hg⟩
  · apply sortBy_desc_reverse (sortKey host column)
      (fun k => match k with
        | Key.number x => numRank x
        | Key.text _ => toLex (2, 0)) data _ hordered
    intro a ha b hb
    rw [hf a, hf b]
    have hc := hcases a ha b hb
    rw [hf a, hf b] at hc
    simp only [Key.lt] at hc ⊢
    rcases hc with hab | h | h
    · subst hab
      have : (f a).lt (f a) = false := by
        cases f a with
        | nan => rfl
        | fin n m => simp [JSNumber.lt]
        | inf n => cases n <;> rfl
      simp [this]
    · have hx : f a ≠ JSNumber.nan := by
        intro hn; rw [hn, (numLt_nan _).1] at h; exact Bool.false_ne_true h
      have hy : f b ≠ JSNumber.nan := by
        intro hn; rw [hn, (numLt_nan _).2] at h; exact Bool.false_ne_true h
      exact numLt_iff_rank _ _ hx hy
    · have hx : f a ≠ JSNumber.nan := by
        intro hn; rw [hn, (numLt_nan _).2] at h; exact Bool.false_ne_true h
      have hy : f b ≠ JSNumber.nan := by
        intro hn; rw [hn, (numLt_nan _).1] at h; exact Bool.false_ne_true h
      exact numLt_iff_rank _ _ hx hy
  · apply sortBy_desc_reverse (sortKey host column)
      (fun k => match k with
        | Key.number _ => ([] : List Nat)
        | Key.text u => u) data _ hordered
    intro a ha b hb
    rw [hg a, hg b]
    exact codeUnitsLt_iff_lt _ _

/-- The amended C9 on three records sorted by `affected_accounts`: `1M`, `2K`, `3G`
come out as `2K`, `1M`, `3G` ascending and as `3G`, `1M`, `2K` descending. -/
theorem applySorting_desc_reverses_asc_witness :
    applySorting asciiHost "affected_accounts".toList Direction.desc
        (applySorting asciiHost "affected_accounts".toList Direction.asc
          [[("affected_accounts".toList, "1M".toList)],
           [("affected_accounts".toList, "2K".toList)],
           [("affected_accounts".toList, "3G".toList)]]) =
      (applySorting asciiHost "affected_accounts".toList Direction.asc
          [[("affected_accounts".toList, "1M".toList)],
           [("affected_accounts".toList, "2K".toList)],
           [("affected_accounts".toList, "3G".toList)]]).reverse ∧
    applySorting asciiHost "affected_accounts".toList Direction.asc
          [[("affected_accounts".toList, "1M".toList)],
           [("affected_accounts".toList, "2K".toList)],
           [("affected_accounts".toList, "3G".toList)]] =
      [[("affected_accounts".toList, "2K".toList)],
       [("affected_accounts".toList, "1M".toList)],
       [("affected_accounts".toList, "3G".toList)]] :=
  ⟨(applySorting_desc_reverses_asc asciiHost "affected_accounts".toList
      [[("affected_accounts".toList, "1M".toList)],
       [("affected_accounts".toList, "2K".toList)],
       [("affected_accounts".toList, "3G".toList)]] (by decide)).1,
   by decide⟩


end Script
